import Mathlib

/-!
# warpkey: fetch / extract / merge / dedupe / sample pipeline

A shallow embedding of `src/main.go` and proofs of its contract.

Conventions of the embedding:

* a Go `string` is a `List Char` (`Key` for a captured key).  The pattern of
  `keyPattern` names ASCII characters only, so matching code point by code
  point and matching byte by byte on UTF-8 text find the same occurrences;
* Go `int` is `Int`; `len` is the list length cast to `Int`;
* the library calls the program depends on (`regexp`, `strings.Join`,
  `rand.Shuffle`, channels, `sync.WaitGroup`, `os`) are embedded by their
  documented behaviour, each next to the place where the program calls it.
-/

namespace Warpkey

/-! ## Regular expressions: the fragment used by `keyPattern` -/

/-- Regular expressions: the syntax fragment that `keyPattern` is written in. -/
inductive Re where
  /-- a literal character -/
  | lit : Char → Re
  /-- a character class, given by its membership test -/
  | cls : (Char → Bool) → Re
  /-- concatenation -/
  | cat : Re → Re → Re
  /-- greedy one-or-more repetition, `e+` -/
  | plus : Re → Re
  /-- the capturing group `( e )`; the pattern has exactly one, group 1 -/
  | grp : Re → Re

/-- A backtracking thread: the input still to be read and the text of group 1. -/
abbrev Thread := List Char × Option (List Char)

/-- Greedy repetition: after one pass of `step`, further passes are preferred
to stopping.  `fuel` bounds the passes; every expression of the fragment reads
at least one character, so the length of the input is fuel enough; a pass
that consumes nothing ends the repetition. -/
def plusLoop (step : List Char → Option (List Char) → List Thread) :
    Nat → List Char → Option (List Char) → List Thread
  | 0, _, _ => []
  | fuel + 1, s, g =>
    (step s g).flatMap fun t =>
      if t.1.length < s.length then plusLoop step fuel t.1 t.2 ++ [t] else [t]

/-- All ways of matching `e` at the start of `s`, in the priority order of a
leftmost-first (Perl-style) matcher, as `regexp` of Go uses for `Find*`:
the head of the result is the match that is reported. -/
def Re.run : Re → List Char → Option (List Char) → List Thread
  | .lit c, s, g =>
    match s with
    | [] => []
    | x :: xs => if x = c then [(xs, g)] else []
  | .cls p, s, g =>
    match s with
    | [] => []
    | x :: xs => if p x then [(xs, g)] else []
  | .cat a b, s, g => (Re.run a s g).flatMap fun t => Re.run b t.1 t.2
  | .plus a, s, g => plusLoop (fun s1 g1 => Re.run a s1 g1) s.length s g
  | .grp a, s, g =>
    (Re.run a s g).map fun t => (t.1, some (s.take (s.length - t.1.length)))

/-- The concatenation of the literal characters of `cs`, followed by `k`. -/
def Re.lits (cs : List Char) (k : Re) : Re :=
  cs.foldr (fun c r => Re.cat (Re.lit c) r) k

/-- The class `[A-Za-z0-9-]`. -/
def isKeyChar (c : Char) : Bool :=
  ('A' ≤ c ∧ c ≤ 'Z') ∨ ('a' ≤ c ∧ c ≤ 'z') ∨ ('0' ≤ c ∧ c ≤ '9') ∨ c = '-'

/-- The text `<code>`. -/
def openTag : List Char := ['<', 'c', 'o', 'd', 'e', '>']

/-- The text `</code>`. -/
def closeTag : List Char := ['<', '/', 'c', 'o', 'd', 'e', '>']

/-- The pattern of `keyPattern`: `<code>([A-Za-z0-9-]+)</code>`. -/
def keyPattern : Re :=
  Re.lits openTag
    (Re.cat (Re.grp (Re.plus (Re.cls isKeyChar)))
      (Re.lits ['<', '/', 'c', 'o', 'd', 'e'] (Re.lit '>')))

/-- One match as `FindAllStringSubmatch` reports it: index 0 is the whole
match, index 1 the text of group 1. -/
abbrev Submatch := List (List Char)

/-- The match of `keyPattern` that starts exactly at the head of `s`, if any:
the reported submatch and the input after the match. -/
def matchHere (s : List Char) : Option (Submatch × List Char) :=
  match Re.run keyPattern s none with
  | [] => none
  | t :: _ => some ([s.take (s.length - t.1.length), t.2.getD []], t.1)

/-- The scan of `FindAllStringSubmatch(s, -1)`: the leftmost match from the
current position is reported and the scan resumes right after it (matches do
not overlap).  `fuel` bounds the number of positions visited. -/
def findAllFrom : Nat → List Char → List Submatch
  | 0, _ => []
  | _ + 1, [] => []
  | fuel + 1, c :: cs =>
    match matchHere (c :: cs) with
    | some (m, rest) => m :: findAllFrom fuel rest
    | none => findAllFrom fuel cs

/-- The call `keyPattern.FindAllStringSubmatch(s, -1)`. -/
def findAllStringSubmatch (s : List Char) : List Submatch :=
  findAllFrom (s.length + 1) s

/-- Lines 45-51 of `fetchKeysFromURL`: all matches, then `match[1]` of each
appended to `keys` in turn. -/
def extractKeys (body : List Char) : List (List Char) :=
  (findAllStringSubmatch body).foldl (fun keys m => keys ++ [m.getD 1 []]) []

/-! ## Documents: the shape of text that the extraction contract speaks about -/

/-- A well-formed key text: non-empty, over letters, digits and hyphen. -/
def WellFormed (w : List Char) : Prop := w ≠ [] ∧ ∀ c ∈ w, isKeyChar c = true

instance (w : List Char) : Decidable (WellFormed w) := by
  unfold WellFormed; infer_instance

/-- The marked text `<code>w</code>`. -/
def marked (w : List Char) : List Char := openTag ++ w ++ closeTag

/-- The text `s` contains a well-formed occurrence `<code>w</code>`. -/
def HasOccurrence (s : List Char) : Prop :=
  ∃ pre w post, WellFormed w ∧ s = pre ++ marked w ++ post

/-- The text `s0 <code>t1</code> s1 ... <code>tN</code> sN`, given as `s0` and
the pairs `(ti, si)`. -/
def document : List Char → List (List Char × List Char) → List Char
  | s0, [] => s0
  | s0, (t, s1) :: rest => s0 ++ marked t ++ document s1 rest

/-! ## `fetchKeysFromURL` -/

/-- A key, as captured by group 1 of `keyPattern`. -/
abbrev Key := List Char

/-- What the network does for one `client.Get(urlStr)` followed by
`io.ReadAll(response.Body)`: the request fails (connection, DNS, TLS, proxy,
timeout), or a response arrives with a status code and a body whose read
either yields the whole text or fails (`none`). -/
inductive GetOutcome where
  | failed : GetOutcome
  | response (statusCode : Int) (body : Option (List Char)) : GetOutcome
  deriving DecidableEq

/-- The three errors `fetchKeysFromURL` builds with `fmt.Errorf`. -/
inductive FetchError where
  /-- "failed to perform HTTP GET request" -/
  | get : FetchError
  /-- "received status code %d" -/
  | status (code : Int) : FetchError
  /-- "failed to read response body" -/
  | read : FetchError
  deriving DecidableEq

/-- The constant `http.StatusOK`. -/
def statusOK : Int := 200

/-- The function `fetchKeysFromURL`, as a function of what the network does
for its URL.  The Go result `(keys, err)` is a pair; `nil` keys are `[]` and a
`nil` error is `none`. -/
def fetchKeysFromURL (net : GetOutcome) : List Key × Option FetchError :=
  match net with
  | .failed => ([], some .get)
  | .response statusCode body =>
    if statusCode ≠ statusOK then ([], some (.status statusCode))
    else
      match body with
      | none => ([], some .read)
      | some text => (extractKeys text, none)

/-! ## `writeKeysToFile` and `min` -/

/-- The library function `strings.Join(elems, sep)`: nothing for no element,
the element itself for one, otherwise the first element and then, for each
further element, the separator and the element. -/
def stringsJoin (elems : List (List Char)) (sep : List Char) : List Char :=
  match elems with
  | [] => []
  | [e] => e
  | e :: rest => rest.foldl (fun b s => b ++ sep ++ s) e

/-- What the filesystem does: whether `os.MkdirAll` of a directory and
`os.WriteFile` of a content to a path succeed. -/
structure Fs where
  mkdirAll : String → Bool
  writeFile : String → List Char → Bool

/-- An observable action of a run. -/
inductive Event where
  /-- `os.MkdirAll(dir, os.ModePerm)` and whether it succeeded -/
  | mkdirAll (dir : String) (ok : Bool) : Event
  /-- `os.WriteFile(path, content, 0644)` and whether it succeeded -/
  | writeFile (path : String) (content : List Char) (ok : Bool) : Event
  /-- `fmt.Println(msg)` -/
  | println (msg : String) : Event
  /-- `log.Fatalf`: the message is logged and the process exits with status 1 -/
  | fatal : Event
  deriving DecidableEq

/-- The content `writeKeysToFile` hands to `os.WriteFile`. -/
def fileContent (keys : List Key) : List Char := stringsJoin keys ['\n']

/-- The function `writeKeysToFile`: the write it performs and whether it
returned a `nil` error. -/
def writeKeysToFile (fs : Fs) (keys : List Key) (path : String) : Event × Bool :=
  let content := fileContent keys
  (Event.writeFile path content (fs.writeFile path content), fs.writeFile path content)

/-- The helper `min`. -/
def min (a b : Int) : Int := if a < b then a else b

/-! ## `main` after the merge: deduplication and sampling -/

def outputDir : String := "data"
def fullPath : String := "data/full"
def litePath : String := "data/lite"

/-- Lines 129-132: `uniqueKeysMap`, a `map[string]struct{}`, is a finite set of
keys; every key of `allKeys` is stored in turn. -/
def uniqueKeysMap (allKeys : List Key) : Finset Key :=
  allKeys.foldl (fun m key => insert key m) ∅

/-- A `range` over a map visits every key of it exactly once, in an order the
language leaves open: `order` is one such visit of `m`. -/
def MapRange (m : Finset Key) (order : List Key) : Prop := (order : Multiset Key) = m.val

instance (m : Finset Key) (order : List Key) : Decidable (MapRange m order) := by
  unfold MapRange; infer_instance

/-- Lines 134-137: `keysList`, appended to once per visited key. -/
def keysListOf (order : List Key) : List Key :=
  order.foldl (fun keysList key => keysList ++ [key]) []

/-- A slice header over the backing array of `keysList`; all slices of `main`
start at index 0, so the header is its length.  Bounds are checked against
the length, which never exceeds the capacity Go checks against. -/
structure Slice where
  len : Nat
  deriving DecidableEq

/-- The slice expression `s[:k]`: a run-time panic (`none`) when out of bounds. -/
def Slice.upTo (s : Slice) (k : Int) : Option Slice :=
  if 0 ≤ k ∧ k ≤ (s.len : Int) then some ⟨k.toNat⟩ else none

/-- The elements a slice denotes in the current contents of the backing array. -/
def Slice.read (backing : List Key) (s : Slice) : List Key := backing.take s.len

/-- The swap closure of line 155-157, `keysList[i], keysList[j] = keysList[j], keysList[i]`,
on the backing array; an index out of range panics (`none`). -/
def swap (backing : List Key) (i j : Nat) : Option (List Key) :=
  match backing[i]?, backing[j]? with
  | some a, some b => some ((backing.set i b).set j a)
  | _, _ => none

/-- The loop of `rand.Shuffle`: for `i` from the start index down to 1, draw
`j` in `[0, i]` and call `swap(i, j)`.  The draw at index `i` is `rnd i`,
reduced into the range the generator guarantees. -/
def shuffleFrom (rnd : Nat → Nat) : Nat → List Key → Option (List Key)
  | 0, backing => some backing
  | i + 1, backing => (swap backing (i + 1) (rnd (i + 1) % (i + 2))).bind (shuffleFrom rnd i)

/-- The call `r.Shuffle(n, swap)`: panics for negative `n`, else runs the loop from `n - 1`. -/
def shuffle (rnd : Nat → Nat) (n : Int) (backing : List Key) : Option (List Key) :=
  if n < 0 then none else shuffleFrom rnd (n.toNat - 1) backing

/-- How a run ends. -/
inductive Exit where
  /-- `main` returns: status 0 -/
  | ok : Exit
  /-- `log.Fatalf`: status 1 -/
  | fatal : Exit
  /-- a run-time panic -/
  | panic : Exit
  deriving DecidableEq

/-- The observable result of a run. -/
structure Outcome where
  events : List Event
  exit : Exit
  deriving DecidableEq

/-- Lines 139-168 of `main`, from the materialised `keysList` on.  `backing` is
the content of the backing array of `keysList`; `fullKeys` and `liteKeys` are
slice headers over that same array, read when they are written to a file. -/
def mainTail (fs : Fs) (rnd : Nat → Nat) (backing : List Key) : Outcome :=
  let keysList : Slice := ⟨backing.length⟩
  if (keysList.len : Int) > 0 then
    if ¬ fs.mkdirAll outputDir then ⟨[.mkdirAll outputDir false, .fatal], .fatal⟩
    else
      match keysList.upTo (min keysList.len 100) with
      | none => ⟨[.mkdirAll outputDir true], .panic⟩
      | some fullKeys =>
        let w1 := writeKeysToFile fs (fullKeys.read backing) fullPath
        if ¬ w1.2 then ⟨[.mkdirAll outputDir true, w1.1, .fatal], .fatal⟩
        else
          match shuffle rnd keysList.len backing with
          | none => ⟨[.mkdirAll outputDir true, w1.1], .panic⟩
          | some shuffled =>
            match keysList.upTo (min keysList.len 15) with
            | none => ⟨[.mkdirAll outputDir true, w1.1], .panic⟩
            | some liteKeys =>
              let w2 := writeKeysToFile fs (liteKeys.read shuffled) litePath
              if ¬ w2.2 then ⟨[.mkdirAll outputDir true, w1.1, w2.1, .fatal], .fatal⟩
              else
                ⟨[.mkdirAll outputDir true, w1.1, w2.1, .println "successfully."], .ok⟩
  else ⟨[.println "No keys found."], .ok⟩

/-- A filesystem on which every operation succeeds. -/
def okFs : Fs := ⟨fun _ => true, fun _ _ => true⟩

/-! ## `main`: fan-out and fan-in (lines 91-126)

The goroutines of `main` are embedded as an interleaving transition system:
a state holds the program counter of every goroutine and the shared objects
(`wg`, `keysCh`, `allKeys`); a step is one goroutine taking its next action,
possible only when that action does not block. -/

/-- The configured sources (lines 91-96). -/
def sources : List String :=
  ["https://t.me/s/warpplus", "https://t.me/s/warppluscn",
   "https://t.me/s/warpPlusHome", "https://t.me/s/warp_veyke"]

/-- Where the goroutine of one source (lines 105-113) stands. -/
inductive TaskPc where
  /-- its `go` statement has not run yet -/
  | notStarted : TaskPc
  /-- next: line 107, the call of `fetchKeysFromURL` and the test of `err` -/
  | fetching : TaskPc
  /-- next: line 112, `keysCh <- keys` -/
  | sending (keys : List Key) : TaskPc
  /-- next: the deferred `wg.Done()` of line 106, on return -/
  | exiting : TaskPc
  /-- returned -/
  | done : TaskPc
  deriving DecidableEq

/-- Where the goroutine of lines 117-120 stands. -/
inductive CloserPc where
  | notStarted : CloserPc
  /-- next: `wg.Wait()` -/
  | waiting : CloserPc
  /-- next: `close(keysCh)` -/
  | closing : CloserPc
  | done : CloserPc
  deriving DecidableEq

/-- Where the main goroutine stands. -/
inductive MainPc where
  /-- in the loop of line 103 at source `i`, next: `wg.Add(1)`; past the last
  source, next: the `go` of line 117 -/
  | adding (i : Nat) : MainPc
  /-- next: the `go` of line 105 for source `i` -/
  | going (i : Nat) : MainPc
  /-- in the loop of line 124, next: a receive from `keysCh` -/
  | collecting : MainPc
  /-- the loop of line 124 has ended: `allKeys` is final -/
  | merged : MainPc
  deriving DecidableEq

/-- The state of the goroutines and of the objects they share. -/
structure State where
  mainPc : MainPc
  tasks : List TaskPc
  closer : CloserPc
  /-- the counter of `wg` -/
  wg : Int
  /-- the buffer of `keysCh`, oldest first -/
  keysCh : List (List Key)
  /-- whether `keysCh` has been closed -/
  closed : Bool
  allKeys : List Key
  /-- a run-time panic happened: a send on the closed channel, a second
  close, or a negative `wg` counter -/
  panicked : Bool
  /-- history, read by no step: the sources whose goroutine has sent, in the
  order of the sends -/
  sent : List Nat
  deriving DecidableEq

/-- The state when line 103 is reached, with `n` sources. -/
def initState (n : Nat) : State :=
  { mainPc := .adding 0, tasks := List.replicate n .notStarted, closer := .notStarted,
    wg := 0, keysCh := [], closed := false, allKeys := [], panicked := false, sent := [] }

/-- The goroutine that takes the next step. -/
inductive Action where
  | main : Action
  | task (i : Nat) : Action
  | closer : Action
  deriving DecidableEq

/-- The next step of the main goroutine (lines 103-126); `none` when it blocks
or has left the loop.  `n` is `len(sources)`. -/
def stepMain (n : Nat) (s : State) : Option State :=
  match s.mainPc with
  | .adding i =>
    if i < n then some { s with wg := s.wg + 1, mainPc := .going i }
    else some { s with closer := .waiting, mainPc := .collecting }
  | .going i => some { s with tasks := s.tasks.set i .fetching, mainPc := .adding (i + 1) }
  | .collecting =>
    match s.keysCh with
    | keys :: rest => some { s with allKeys := s.allKeys ++ keys, keysCh := rest }
    | [] => if s.closed then some { s with mainPc := .merged } else none
  | .merged => none

/-- The next step of the goroutine of source `i` (lines 105-113); `none` when
it blocks, has not started or has returned.  The capacity of `keysCh` is
`len(sources)`, here `net.length`. -/
def stepTask (net : List GetOutcome) (i : Nat) (s : State) : Option State :=
  match s.tasks[i]? with
  | some .fetching =>
    match net[i]? with
    | none => none
    | some o =>
      match fetchKeysFromURL o with
      | (keys, none) => some { s with tasks := s.tasks.set i (.sending keys) }
      | (_, some _) => some { s with tasks := s.tasks.set i .exiting }
  | some (.sending keys) =>
    if s.closed then some { s with panicked := true }
    else if s.keysCh.length < net.length then
      some { s with keysCh := s.keysCh ++ [keys], tasks := s.tasks.set i .exiting,
                    sent := s.sent ++ [i] }
    else none
  | some .exiting =>
    if 0 < s.wg then some { s with wg := s.wg - 1, tasks := s.tasks.set i .done }
    else some { s with panicked := true }
  | _ => none

/-- The next step of the goroutine of lines 117-120; `none` when it blocks,
has not started or has returned. -/
def stepCloser (s : State) : Option State :=
  match s.closer with
  | .waiting => if s.wg = 0 then some { s with closer := .closing } else none
  | .closing =>
    if s.closed then some { s with panicked := true }
    else some { s with closed := true, closer := .done }
  | _ => none

/-- One step of the program: the chosen goroutine acts.  Nothing runs after a panic. -/
def step (net : List GetOutcome) (a : Action) (s : State) : Option State :=
  if s.panicked then none
  else
    match a with
    | .main => stepMain net.length s
    | .task i => stepTask net i s
    | .closer => stepCloser s

/-- The state after the schedule `sched`, if every step of it can be taken. -/
def exec (net : List GetOutcome) : List Action → State → Option State
  | [], s => some s
  | a :: sched, s => (step net a s).bind (exec net sched)

/-- The state `s` is reached by some interleaving of the goroutines. -/
def Reachable (net : List GetOutcome) (s : State) : Prop :=
  ∃ sched, exec net sched (initState net.length) = some s

/-- The keys the goroutine of source `i` obtains from `fetchKeysFromURL`. -/
def keysOf (net : List GetOutcome) (i : Nat) : List Key :=
  match net[i]? with
  | some o => (fetchKeysFromURL o).1
  | none => []

/-- Source `i` is configured and its fetch succeeds. -/
def Succeeds (net : List GetOutcome) (i : Nat) : Prop :=
  ∃ o, net[i]? = some o ∧ (fetchKeysFromURL o).2 = none

instance (net : List GetOutcome) (i : Nat) : Decidable (Succeeds net i) := by
  unfold Succeeds
  cases h : net[i]? with
  | none => exact isFalse (by simp)
  | some o =>
    by_cases h2 : (fetchKeysFromURL o).2 = none
    · exact isTrue ⟨o, rfl, h2⟩
    · exact isFalse (by simpa using h2)

/-- A complete run of `main` on the network `net` (one outcome per configured
source), the filesystem `fs` and the draws `rnd` of the shuffle: some
interleaving of the goroutines ends the collecting loop, the map of unique keys
is iterated in some order, and the rest of `main` runs on the resulting
`keysList`. -/
def MainRun (net : List GetOutcome) (fs : Fs) (rnd : Nat → Nat) (out : Outcome) : Prop :=
  net.length = sources.length ∧
  ∃ s order, Reachable net s ∧ s.mainPc = .merged
    ∧ MapRange (uniqueKeysMap s.allKeys) order ∧ out = mainTail fs rnd (keysListOf order)

/-! ## The invariant of the protocol and the bound on its length -/

/-- The goroutine has been started and has not yet returned. -/
def TaskPc.active : TaskPc → Bool
  | .fetching => true
  | .sending _ => true
  | .exiting => true
  | _ => false

/-- The `wg.Add(1)` calls not yet matched by a started goroutine. -/
def MainPc.pending : MainPc → Nat
  | .going _ => 1
  | _ => 0

/-- The main goroutine is still in the loop of line 103 and has not reached source `j`. -/
def MainPc.before (pc : MainPc) (j : Nat) : Prop :=
  match pc with
  | .adding i => i ≤ j
  | .going i => i ≤ j
  | _ => False

/-- The invariant of the fan-out/fan-in protocol. -/
structure Inv (net : List GetOutcome) (s : State) : Prop where
  len : s.tasks.length = net.length
  noPanic : s.panicked = false
  addingLe : ∀ i, s.mainPc = .adding i → i ≤ net.length
  goingLt : ∀ i, s.mainPc = .going i → i < net.length
  closerStarted : s.closer = .notStarted ↔ ¬ (s.mainPc = .collecting ∨ s.mainPc = .merged)
  started : ∀ j, j < net.length → (s.tasks[j]? = some .notStarted ↔ s.mainPc.before j)
  wgCount : s.wg = ((s.tasks.countP TaskPc.active + s.mainPc.pending : Nat) : Int)
  barrier : (s.closer = .closing ∨ s.closer = .done) →
    ∀ j, j < net.length → s.tasks[j]? = some .done
  closedIff : s.closed = true ↔ s.closer = .done
  sendingOk : ∀ (i : Nat) (keys : List Key), s.tasks[i]? = some (TaskPc.sending keys) →
    ∃ o, net[i]? = some o ∧ fetchKeysFromURL o = (keys, none)
  sentNodup : s.sent.Nodup
  sentIff : ∀ i, i ∈ s.sent ↔
    Succeeds net i ∧ (s.tasks[i]? = some .exiting ∨ s.tasks[i]? = some .done)
  merge : (s.sent.map (keysOf net)).flatten = s.allKeys ++ s.keysCh.flatten
  chLen : s.keysCh.length ≤ s.sent.length
  mergedDone : s.mainPc = .merged → s.closed = true ∧ s.keysCh = []

/-- Steps still to be taken by the goroutine of a source. -/
def TaskPc.weight : TaskPc → Nat
  | .notStarted => 4
  | .fetching => 4
  | .sending _ => 3
  | .exiting => 1
  | .done => 0

/-- A bound on the number of steps the program can still take. -/
def State.measure (n : Nat) (s : State) : Nat :=
  (match s.mainPc with
    | .adding i => 2 * (n - i) + 2
    | .going i => 2 * (n - i) + 1
    | .collecting => 1
    | .merged => 0)
  + (s.tasks.map TaskPc.weight).sum
  + (match s.closer with
    | .notStarted => 2
    | .waiting => 2
    | .closing => 1
    | .done => 0)
  + s.keysCh.length
  + (if s.panicked then 0 else 1)

/-- The straight-line form of `mainTail` on a non-empty `keysList`, given the
keys `full` and `lite` it hands to `writeKeysToFile` (used to state lemmas;
`mainTail_nonempty` relates it to `mainTail`). -/
def tailSteps (fs : Fs) (full lite : List Key) : Outcome :=
  if fs.mkdirAll outputDir = true then
    if fs.writeFile fullPath (fileContent full) = true then
      if fs.writeFile litePath (fileContent lite) = true then
        ⟨[.mkdirAll outputDir true, .writeFile fullPath (fileContent full) true,
          .writeFile litePath (fileContent lite) true, .println "successfully."], .ok⟩
      else
        ⟨[.mkdirAll outputDir true, .writeFile fullPath (fileContent full) true,
          .writeFile litePath (fileContent lite) false, .fatal], .fatal⟩
    else
      ⟨[.mkdirAll outputDir true, .writeFile fullPath (fileContent full) false, .fatal], .fatal⟩
  else ⟨[.mkdirAll outputDir false, .fatal], .fatal⟩

/-! ## Example inputs -/

/-- A network for two sources: the first answers 500, the second answers 200
with one key in its body. -/
def demoNet : List GetOutcome :=
  [.response 500 (some "<code>zzz</code>".toList), .response 200 (some "a<code>k-1</code>".toList)]

/-- A complete schedule for two sources. -/
def demoSched : List Action :=
  [.main, .main, .task 0, .main, .main, .task 1, .task 0, .task 1, .main, .task 1,
   .closer, .main, .closer, .main]

/-- The first segment of the example document: a marker with a wrong character inside. -/
def demoS0 : List Char := "x<code>a_b</code>".toList

/-- Two well-formed occurrences of the same key, followed by an unclosed and by an empty marker. -/
def demoItems : List (List Char × List Char) :=
  [("abc-123".toList, "<code>".toList), ("abc-123".toList, "<code></code>y".toList)]

/-- The state in which `demoSched` ends on `demoNet`. -/
def demoFinal : State :=
  { mainPc := .merged, tasks := [.done, .done], closer := .done, wg := 0, keysCh := [],
    closed := true, allKeys := ["k-1".toList], panicked := false, sent := [1] }

/-! ## Evaluation of the embedding on concrete inputs -/

theorem extractKeys_example : extractKeys "x<code>abc-123</code>y<code>xyz-999</code>".toList
    = ["abc-123".toList, "xyz-999".toList] := by decide

theorem extractKeys_malformed_example : extractKeys "<code>a_b</code><code></code><code>ab<code>c-1</code>".toList
    = ["c-1".toList] := by decide

theorem mainTail_example : (mainTail okFs (fun _ => 0) ["b".toList, "a".toList, "c".toList]).events
    = [.mkdirAll "data" true, .writeFile "data/full" "b\na\nc".toList true,
       .writeFile "data/lite" "a\nc\nb".toList true, .println "successfully."] := by decide

theorem uniqueKeysMap_example : uniqueKeysMap ["a".toList, "b".toList, "a".toList] = {"a".toList, "b".toList} := by
  decide

theorem mapRange_example : MapRange (uniqueKeysMap ["a".toList, "b".toList, "a".toList])
    ["b".toList, "a".toList] := by decide

theorem exec_demo_example : (exec demoNet demoSched (initState 2)).map (fun s => (s.mainPc, s.allKeys, s.sent))
    = some (.merged, ["k-1".toList], [1]) := by decide

/-! ## The matcher on `keyPattern` -/

theorem mem_run_lit {c : Char} {s : List Char} {g : Option (List Char)} {t : Thread} :
    t ∈ Re.run (.lit c) s g ↔ s = c :: t.1 ∧ t.2 = g := by
  obtain ⟨t1, t2⟩ := t
  cases s with
  | nil => simp [Re.run]
  | cons x xs =>
    by_cases h : x = c
    · subst h
      simp only [Re.run, if_true, List.mem_singleton, Prod.mk.injEq, List.cons.injEq, true_and]
      constructor
      · rintro ⟨rfl, rfl⟩; exact ⟨rfl, rfl⟩
      · rintro ⟨rfl, rfl⟩; exact ⟨rfl, rfl⟩
    · simp [Re.run, h]

theorem mem_run_lits {cs : List Char} {k : Re} {s : List Char} {g : Option (List Char)}
    {t : Thread} :
    t ∈ Re.run (Re.lits cs k) s g ↔ ∃ r, s = cs ++ r ∧ t ∈ Re.run k r g := by
  induction cs generalizing s g with
  | nil => simp [Re.lits]
  | cons c cs ih =>
    have hl : Re.lits (c :: cs) k = Re.cat (Re.lit c) (Re.lits cs k) := rfl
    rw [hl]
    simp only [Re.run, List.mem_flatMap]
    constructor
    · rintro ⟨u, hu, ht⟩
      obtain ⟨hs, hg⟩ := mem_run_lit.mp hu
      obtain ⟨r, hr, htr⟩ := ih.mp ht
      exact ⟨r, by rw [hs, hr]; rfl, by rw [← hg]; exact htr⟩
    · rintro ⟨r, hs, ht⟩
      refine ⟨(cs ++ r, g), mem_run_lit.mpr ⟨by rw [hs]; rfl, rfl⟩, ih.mpr ⟨r, rfl, ht⟩⟩

theorem mem_plusLoop_cls {p : Char → Bool} (fuel : Nat) {s : List Char}
    {g : Option (List Char)} {t : Thread}
    (h : t ∈ plusLoop (fun s1 g1 => Re.run (.cls p) s1 g1) fuel s g) :
    ∃ w, w ≠ [] ∧ (∀ c ∈ w, p c = true) ∧ s = w ++ t.1 ∧ t.2 = g := by
  induction fuel generalizing s g with
  | zero => simp [plusLoop] at h
  | succ n ih =>
    cases s with
    | nil => simp [plusLoop, Re.run] at h
    | cons x xs =>
      by_cases hp : p x = true
      · simp only [plusLoop, Re.run, hp, if_true, List.flatMap_cons, List.flatMap_nil,
          List.append_nil, List.length_cons, Nat.lt_succ_self] at h
        rcases List.mem_append.mp h with h1 | h1
        · obtain ⟨w, _, hw, hs, hg⟩ := ih h1
          refine ⟨x :: w, by simp, ?_, by rw [hs]; rfl, hg⟩
          intro c hc
          rcases List.mem_cons.mp hc with rfl | hc
          · exact hp
          · exact hw c hc
        · rw [List.mem_singleton] at h1
          subst h1
          exact ⟨[x], by simp, by simpa using hp, rfl, rfl⟩
      · simp [plusLoop, Re.run, hp] at h

theorem run_cat (a b : Re) (s : List Char) (g : Option (List Char)) :
    Re.run (.cat a b) s g = (Re.run a s g).flatMap fun t => Re.run b t.1 t.2 := by
  simp only [Re.run]

theorem run_grp_plus (a : Re) (s : List Char) (g : Option (List Char)) :
    Re.run (.grp (.plus a)) s g
      = (plusLoop (fun s1 g1 => Re.run a s1 g1) s.length s g).map
          fun t => (t.1, some (s.take (s.length - t.1.length))) := by
  simp only [Re.run]

theorem isKeyChar_ne_lt {c : Char} (h : isKeyChar c = true) : c ≠ '<' := by
  rintro rfl
  revert h
  decide

theorem plusLoop_cls_stop {p : Char → Bool} (fuel : Nat) {y : Char} (tl : List Char)
    (g : Option (List Char)) (hy : p y = false) :
    plusLoop (fun s1 g1 => Re.run (.cls p) s1 g1) fuel (y :: tl) g = [] := by
  cases fuel with
  | zero => rfl
  | succ n => simp [plusLoop, Re.run, hy]

/-- On a run `w` of class characters that ends before `y`, the greedy loop
offers the longest run first; every other offer stops inside the run. -/
theorem plusLoop_cls_exact {p : Char → Bool} {y : Char} (tl : List Char)
    (g : Option (List Char)) (hy : p y = false) (w : List Char) (hne : w ≠ [])
    (hw : ∀ c ∈ w, p c = true) (fuel : Nat) (hf : (w ++ y :: tl).length ≤ fuel) :
    ∃ L, plusLoop (fun s1 g1 => Re.run (.cls p) s1 g1) fuel (w ++ y :: tl) g
        = (y :: tl, g) :: L
      ∧ ∀ t ∈ L, ∃ x xs, t.1 = x :: xs ∧ p x = true := by
  induction w generalizing fuel with
  | nil => exact absurd rfl hne
  | cons x w ih =>
    cases fuel with
    | zero => simp at hf
    | succ n =>
      have hx : p x = true := hw x (List.mem_cons_self _ _)
      have hstep : plusLoop (fun s1 g1 => Re.run (.cls p) s1 g1) (n + 1)
          (x :: w ++ y :: tl) g
          = plusLoop (fun s1 g1 => Re.run (.cls p) s1 g1) n (w ++ y :: tl) g
            ++ [(w ++ y :: tl, g)] := by
        simp [plusLoop, Re.run, hx]
      rw [hstep]
      cases w with
      | nil =>
        refine ⟨[], ?_, by simp⟩
        rw [List.nil_append, plusLoop_cls_stop n tl g hy]
        rfl
      | cons x2 w2 =>
        have hf2 : (x2 :: w2 ++ y :: tl).length ≤ n := by
          simp only [List.cons_append, List.length_cons] at hf ⊢
          omega
        obtain ⟨L, hL, hLp⟩ := ih (by simp)
          (fun c hc => hw c (List.mem_cons_of_mem _ hc)) n hf2
        refine ⟨L ++ [(x2 :: w2 ++ y :: tl, g)], by rw [hL]; rfl, ?_⟩
        intro t ht
        rcases List.mem_append.mp ht with h1 | h1
        · exact hLp t h1
        · rw [List.mem_singleton] at h1
          subst h1
          exact ⟨x2, w2 ++ y :: tl, rfl, hw x2 (by simp)⟩

/-- Completeness of the matcher: on `<code>w</code>rest` with `w` a non-empty
run of class characters, the only thread is the one that captured `w`. -/
theorem run_keyPattern_match (w rest : List Char) (hne : w ≠ [])
    (hw : ∀ c ∈ w, isKeyChar c = true) :
    Re.run keyPattern (openTag ++ w ++ closeTag ++ rest) none = [(rest, some w)] := by
  have hy : isKeyChar '<' = false := by decide
  obtain ⟨L, hL, hLp⟩ := plusLoop_cls_exact (['/', 'c', 'o', 'd', 'e', '>'] ++ rest)
    none hy w hne hw (w ++ '<' :: (['/', 'c', 'o', 'd', 'e', '>'] ++ rest)).length le_rfl
  have hopen : Re.run keyPattern (openTag ++ w ++ closeTag ++ rest) none
      = Re.run (Re.cat (Re.grp (Re.plus (Re.cls isKeyChar)))
          (Re.lits ['<', '/', 'c', 'o', 'd', 'e'] (Re.lit '>')))
          (w ++ '<' :: (['/', 'c', 'o', 'd', 'e', '>'] ++ rest)) none := by
    simp [keyPattern, Re.lits, Re.run, openTag, closeTag]
  rw [hopen, run_cat, run_grp_plus, hL]
  simp only [List.map_cons, List.flatMap_cons]
  have htail : (List.map (fun t : Thread =>
        (t.1, some (List.take ((w ++ '<' :: (['/', 'c', 'o', 'd', 'e', '>'] ++ rest)).length
          - t.1.length) (w ++ '<' :: (['/', 'c', 'o', 'd', 'e', '>'] ++ rest))))) L).flatMap
      (fun t => Re.run (Re.lits ['<', '/', 'c', 'o', 'd', 'e'] (Re.lit '>')) t.1 t.2) = [] := by
    rw [List.eq_nil_iff_forall_not_mem]
    intro u hu
    obtain ⟨v, hv, huv⟩ := List.mem_flatMap.mp hu
    obtain ⟨t, ht, rfl⟩ := List.mem_map.mp hv
    obtain ⟨x, xs, hx, hpx⟩ := hLp t ht
    obtain ⟨r, hr, _⟩ := mem_run_lits.mp huv
    simp only [hx, List.cons_append, List.cons.injEq] at hr
    exact isKeyChar_ne_lt hpx hr.1
  rw [htail]
  simp [Re.lits, Re.run]

/-- Soundness of the matcher: a thread of `keyPattern` on `s` has read
`<code>w</code>` for a non-empty run `w` of class characters, captured as group 1. -/
theorem mem_run_keyPattern {s : List Char} {t : Thread}
    (h : t ∈ Re.run keyPattern s none) :
    ∃ w, w ≠ [] ∧ (∀ c ∈ w, isKeyChar c = true)
      ∧ s = openTag ++ w ++ closeTag ++ t.1 ∧ t.2 = some w := by
  obtain ⟨r, hs, h1⟩ := mem_run_lits.mp h
  rw [run_cat, run_grp_plus] at h1
  simp only [List.mem_flatMap, List.mem_map] at h1
  obtain ⟨u, ⟨v, hv, rfl⟩, hu⟩ := h1
  obtain ⟨w, hne, hw, hr, _⟩ := mem_plusLoop_cls _ hv
  obtain ⟨r2, hr2, hlast⟩ := mem_run_lits.mp hu
  obtain ⟨h3, h4⟩ := mem_run_lit.mp hlast
  simp only at hr2 h4
  refine ⟨w, hne, hw, ?_, ?_⟩
  · rw [hs, hr, hr2, h3]
    simp [closeTag]
  · rw [h4]
    congr 1
    conv_lhs => rw [hr]
    simp

theorem matchHere_marked (w rest : List Char) (h : WellFormed w) :
    matchHere (marked w ++ rest) = some ([marked w, w], rest) := by
  have hr := run_keyPattern_match w rest h.1 h.2
  have hlen : (openTag ++ w ++ closeTag ++ rest).length - rest.length
      = (openTag ++ w ++ closeTag).length := by
    simp only [List.length_append]
    omega
  unfold matchHere marked
  rw [hr]
  simp only [hlen, List.take_left, Option.getD_some]

theorem matchHere_some {s : List Char} {m : Submatch} {rest : List Char}
    (h : matchHere s = some (m, rest)) :
    ∃ w, WellFormed w ∧ s = marked w ++ rest ∧ m = [marked w, w] := by
  unfold matchHere at h
  split at h
  · exact absurd h (by simp)
  · rename_i t tl heq
    obtain ⟨w, hne, hw, hs, hg⟩ := @mem_run_keyPattern s t (by rw [heq]; simp)
    have hw2 : WellFormed w := ⟨hne, hw⟩
    have hm := matchHere_marked w t.1 hw2
    have hs2 : s = marked w ++ t.1 := hs
    rw [← hs2] at hm
    unfold matchHere at hm
    rw [heq] at hm
    simp only [Option.some.injEq, Prod.mk.injEq] at h hm
    exact ⟨w, hw2, by rw [← h.2]; exact hs2, by rw [← h.1]; exact hm.1⟩

theorem matchHere_none_iff {s : List Char} :
    matchHere s = none ↔ ¬ ∃ w rest, WellFormed w ∧ s = marked w ++ rest := by
  constructor
  · rintro h ⟨w, rest, hw, rfl⟩
    rw [matchHere_marked w rest hw] at h
    exact absurd h (by simp)
  · intro h
    cases hm : matchHere s with
    | none => rfl
    | some v =>
      obtain ⟨m, rest⟩ := v
      obtain ⟨w, hw, hs, _⟩ := matchHere_some hm
      exact absurd ⟨w, rest, hw, hs⟩ h

theorem matchHere_length {s : List Char} {m : Submatch} {rest : List Char}
    (h : matchHere s = some (m, rest)) : rest.length < s.length := by
  obtain ⟨w, _, hs, _⟩ := matchHere_some h
  rw [hs]
  simp [marked, openTag]
  omega

/-! ## The scan -/

theorem findAllFrom_fuel (n m : Nat) (s : List Char) (hn : s.length < n) (hm : s.length < m) :
    findAllFrom n s = findAllFrom m s := by
  induction n generalizing m s with
  | zero => omega
  | succ n ih =>
    cases m with
    | zero => omega
    | succ m =>
      cases s with
      | nil => rfl
      | cons c cs =>
        simp only [findAllFrom]
        cases hmh : matchHere (c :: cs) with
        | none =>
          simp only [List.length_cons] at hn hm
          exact ih m cs (by omega) (by omega)
        | some v =>
          obtain ⟨mm, rest⟩ := v
          have hl := matchHere_length hmh
          simp only [List.length_cons] at hn hm hl
          simp only
          rw [ih m rest (by omega) (by omega)]

theorem findAll_nil : findAllStringSubmatch [] = [] := rfl

theorem findAll_skip {c : Char} {cs : List Char} (h : matchHere (c :: cs) = none) :
    findAllStringSubmatch (c :: cs) = findAllStringSubmatch cs := by
  unfold findAllStringSubmatch
  simp only [findAllFrom, h, List.length_cons]

theorem findAll_match {s : List Char} {m : Submatch} {rest : List Char}
    (h : matchHere s = some (m, rest)) :
    findAllStringSubmatch s = m :: findAllStringSubmatch rest := by
  have hl := matchHere_length h
  cases s with
  | nil => simp at hl
  | cons c cs =>
    unfold findAllStringSubmatch
    simp only [findAllFrom, h, List.length_cons]
    simp only [List.length_cons] at hl
    rw [findAllFrom_fuel _ (rest.length + 1) rest (by omega) (by omega)]

theorem foldl_snoc_map {α β : Type} (f : α → β) (l : List α) (acc : List β) :
    l.foldl (fun keys m => keys ++ [f m]) acc = acc ++ l.map f := by
  induction l generalizing acc with
  | nil => simp
  | cons a l ih => simp [ih]

theorem extractKeys_eq_map (s : List Char) :
    extractKeys s = (findAllStringSubmatch s).map fun m => m.getD 1 [] := by
  unfold extractKeys
  rw [foldl_snoc_map, List.nil_append]

theorem extractKeys_nil : extractKeys [] = [] := rfl

theorem extractKeys_skip {c : Char} {cs : List Char} (h : matchHere (c :: cs) = none) :
    extractKeys (c :: cs) = extractKeys cs := by
  rw [extractKeys_eq_map, extractKeys_eq_map, findAll_skip h]

theorem extractKeys_marked (w rest : List Char) (h : WellFormed w) :
    extractKeys (marked w ++ rest) = w :: extractKeys rest := by
  rw [extractKeys_eq_map, extractKeys_eq_map, findAll_match (matchHere_marked w rest h)]
  rfl

/-! ## Segments between occurrences -/

/-- A text `pre ++ c :: b` in which `c` occurs neither in `pre` nor in `b` is
split at `c` in one way only. -/
theorem split_at_unique {c : Char} (pre b : List Char) (hpre : c ∉ pre) (hb : c ∉ b)
    (X a : List Char) (h : X ++ c :: a = pre ++ c :: b) : X = pre ∧ a = b := by
  induction pre generalizing X with
  | nil =>
    cases X with
    | nil => simpa using h
    | cons x X2 =>
      simp only [List.cons_append, List.nil_append, List.cons.injEq] at h
      have : c ∈ b := by rw [← h.2]; simp
      exact absurd this hb
  | cons p pre ih =>
    cases X with
    | nil =>
      simp only [List.nil_append, List.cons_append, List.cons.injEq] at h
      exact absurd (by rw [h.1]; simp) hpre
    | cons x X2 =>
      simp only [List.cons_append, List.cons.injEq] at h
      obtain ⟨hX, ha⟩ := ih (fun hc => hpre (List.mem_cons_of_mem _ hc)) X2 h.2
      exact ⟨by rw [h.1, hX], ha⟩

theorem not_hasOccurrence_tail {c : Char} {g : List Char} (h : ¬ HasOccurrence (c :: g)) :
    ¬ HasOccurrence g := by
  rintro ⟨pre, w, post, hw, hg⟩
  exact h ⟨c :: pre, w, post, hw, by rw [hg]; rfl⟩

/-- No match starts inside a segment without an occurrence, whatever follows
it, as long as what follows is empty or begins with `<c`. -/
theorem matchHere_segment {c : Char} {g T : List Char} (hg : ¬ HasOccurrence (c :: g))
    (hT : T = [] ∨ ∃ T2, T = '<' :: 'c' :: T2) : matchHere (c :: g ++ T) = none := by
  rw [matchHere_none_iff]
  rintro ⟨w, rest, hw, hs⟩
  rcases List.append_eq_append_iff.mp hs with ⟨a, ha, hTa⟩ | ⟨c2, hc2, _⟩
  · -- the match ends at or after the end of the segment
    cases a with
    | nil =>
      exact hg ⟨[], w, [], hw, by rw [ha]; simp⟩
    | cons a1 a2 =>
      rcases hT with rfl | ⟨T2, rfl⟩
      · simp at hTa
      · simp only [List.cons_append, List.cons.injEq] at hTa
        obtain ⟨ha1, hT2⟩ := hTa
        subst ha1
        -- the segment is a proper non-empty prefix of the match
        have hm : marked w = '<' :: (['c', 'o', 'd', 'e', '>'] ++ w ++ '<' ::
            ['/', 'c', 'o', 'd', 'e', '>']) := by
          simp [marked, openTag, closeTag]
        rw [hm] at ha
        simp only [List.cons_append, List.cons.injEq] at ha
        have hnot : '<' ∉ ['c', 'o', 'd', 'e', '>'] ++ w := by
          intro hmem
          rcases List.mem_append.mp hmem with h1 | h1
          · revert h1; decide
          · exact isKeyChar_ne_lt (hw.2 _ h1) rfl
        have hsplit := split_at_unique (['c', 'o', 'd', 'e', '>'] ++ w)
          ['/', 'c', 'o', 'd', 'e', '>'] hnot (by decide) g a2 (by
            rw [← ha.2]; simp)
        rw [hsplit.2] at hT2
        simp only [List.cons_append, List.cons.injEq] at hT2
        exact absurd hT2.1 (by decide)
  · -- the match ends inside the segment
    exact hg ⟨[], w, c2, hw, by rw [hc2]; simp⟩

theorem extractKeys_segment (g T : List Char) (hg : ¬ HasOccurrence g)
    (hT : T = [] ∨ ∃ T2, T = '<' :: 'c' :: T2) :
    extractKeys (g ++ T) = extractKeys T := by
  induction g with
  | nil => rfl
  | cons c g ih =>
    have hm := matchHere_segment hg hT
    rw [List.cons_append] at hm ⊢
    rw [extractKeys_skip hm]
    exact ih (not_hasOccurrence_tail hg)

theorem extractKeys_document (s0 : List Char) (items : List (List Char × List Char))
    (htok : ∀ p ∈ items, WellFormed p.1) (hs0 : ¬ HasOccurrence s0)
    (hseg : ∀ p ∈ items, ¬ HasOccurrence p.2) :
    extractKeys (document s0 items) = items.map Prod.fst := by
  induction items generalizing s0 with
  | nil =>
    have := extractKeys_segment s0 [] hs0 (Or.inl rfl)
    rw [List.append_nil] at this
    rw [document, this]
    rfl
  | cons p ps ih =>
    obtain ⟨t, s1⟩ := p
    have ht : WellFormed t := htok (t, s1) (List.mem_cons_self _ _)
    have h1 : ¬ HasOccurrence s1 := hseg (t, s1) (List.mem_cons_self _ _)
    have hdoc : document s0 ((t, s1) :: ps) = s0 ++ (marked t ++ document s1 ps) := by
      simp [document]
    rw [hdoc, extractKeys_segment s0 _ hs0 (Or.inr ⟨_, by simp [marked, openTag]; rfl⟩),
      extractKeys_marked t _ ht,
      ih s1 (fun q hq => htok q (List.mem_cons_of_mem _ hq)) h1
        (fun q hq => hseg q (List.mem_cons_of_mem _ hq))]
    rfl

/-- A text that contains a well-formed occurrence yields at least one key. -/
theorem extractKeys_ne_nil_of_hasOccurrence {s : List Char} (h : HasOccurrence s) :
    extractKeys s ≠ [] := by
  obtain ⟨pre, w, post, hw, rfl⟩ := h
  induction pre with
  | nil =>
    rw [List.nil_append, extractKeys_marked w post hw]
    simp
  | cons c pre ih =>
    cases hm : matchHere (c :: pre ++ marked w ++ post) with
    | none =>
      have hm2 : matchHere (c :: (pre ++ marked w ++ post)) = none := by simpa using hm
      have := extractKeys_skip hm2
      simp only [List.cons_append] at this ⊢
      rw [this]
      exact ih
    | some v =>
      obtain ⟨m, rest⟩ := v
      rw [extractKeys_eq_map, findAll_match hm]
      simp

/-! ## `fetchKeysFromURL` -/

theorem fetch_ok_iff (net : GetOutcome) :
    (fetchKeysFromURL net).2 = none ↔ ∃ text, net = .response 200 (some text) := by
  cases net with
  | failed => simp [fetchKeysFromURL]
  | response code body =>
    by_cases hc : code = 200
    · subst hc
      cases body <;> simp [fetchKeysFromURL, statusOK]
    · simp [fetchKeysFromURL, statusOK, hc]

theorem fetch_error_no_keys (net : GetOutcome) (h : (fetchKeysFromURL net).2 ≠ none) :
    (fetchKeysFromURL net).1 = [] := by
  cases net with
  | failed => rfl
  | response code body =>
    by_cases hc : code = 200
    · subst hc
      cases body with
      | none => rfl
      | some text => simp [fetchKeysFromURL, statusOK] at h
    · simp [fetchKeysFromURL, statusOK, hc]

/-! ## Deduplication -/

theorem foldl_insert_eq (l : List Key) (acc : Finset Key) :
    l.foldl (fun m key => insert key m) acc = acc ∪ l.toFinset := by
  induction l generalizing acc with
  | nil => simp
  | cons a l ih =>
    rw [List.foldl_cons, ih]
    ext k
    simp only [Finset.mem_union, Finset.mem_insert, List.toFinset_cons]
    tauto

theorem uniqueKeysMap_eq (allKeys : List Key) : uniqueKeysMap allKeys = allKeys.toFinset := by
  unfold uniqueKeysMap
  rw [foldl_insert_eq]
  simp

theorem mem_uniqueKeysMap {allKeys : List Key} {k : Key} :
    k ∈ uniqueKeysMap allKeys ↔ k ∈ allKeys := by
  rw [uniqueKeysMap_eq, List.mem_toFinset]

theorem keysListOf_eq (order : List Key) : keysListOf order = order := by
  have h := foldl_snoc_map (fun k : Key => k) order []
  simpa [keysListOf] using h

theorem mapRange_nodup {m : Finset Key} {order : List Key} (h : MapRange m order) :
    order.Nodup := by
  have := m.nodup
  rw [← h] at this
  exact Multiset.coe_nodup.mp this

theorem mapRange_mem {m : Finset Key} {order : List Key} (h : MapRange m order) (k : Key) :
    k ∈ order ↔ k ∈ m := by
  rw [← Finset.mem_val, ← h, Multiset.mem_coe]

theorem mapRange_length {m : Finset Key} {order : List Key} (h : MapRange m order) :
    order.length = m.card := by
  rw [Finset.card_def, ← h, Multiset.coe_card]

theorem uniqueKeysMap_of_mapRange {m : Finset Key} {order : List Key} (h : MapRange m order) :
    uniqueKeysMap order = m := by
  ext k
  rw [mem_uniqueKeysMap, mapRange_mem h]

/-! ## The shuffle -/

theorem set_set_perm {α : Type} [DecidableEq α] (l : List α) (i j : Nat) (a b : α)
    (hi : i < l.length) (hj : j < l.length) (hia : l[i] = a) (hjb : l[j] = b) :
    ((l.set i b).set j a).Perm l := by
  rw [List.perm_iff_count]
  intro x
  have hjl2 : j < (l.set i b).length := by simpa using hj
  have hget : (l.set i b)[j] = b := by
    rw [List.getElem_set]
    split_ifs
    · rfl
    · exact hjb
  rw [List.count_set a x _ j hjl2, hget, List.count_set b x l i hi, hia]
  have hpos : (if (a == x) = true then 1 else 0) ≤ List.count x l := by
    split_ifs with hax
    · have hax2 : a = x := by simpa using hax
      have : x ∈ l := by rw [← hax2, ← hia]; exact List.getElem_mem _
      exact List.count_pos_iff.mpr this
    · exact Nat.zero_le _
  omega

theorem swap_perm {backing out : List Key} {i j : Nat} (h : swap backing i j = some out) :
    out.Perm backing := by
  unfold swap at h
  cases hi : backing[i]? with
  | none => simp [hi] at h
  | some a =>
    cases hj : backing[j]? with
    | none => simp [hi, hj] at h
    | some b =>
      simp only [hi, hj, Option.some.injEq] at h
      subst h
      obtain ⟨hil, hia⟩ := List.getElem?_eq_some.mp hi
      obtain ⟨hjl, hjb⟩ := List.getElem?_eq_some.mp hj
      exact set_set_perm backing i j a b hil hjl hia hjb

theorem swap_some {backing : List Key} {i j : Nat} (hi : i < backing.length)
    (hj : j < backing.length) : ∃ out, swap backing i j = some out := by
  unfold swap
  rw [List.getElem?_eq_getElem hi, List.getElem?_eq_getElem hj]
  exact ⟨_, rfl⟩

theorem shuffleFrom_some (rnd : Nat → Nat) (i : Nat) (backing : List Key)
    (h : i < backing.length ∨ i = 0) :
    ∃ out, shuffleFrom rnd i backing = some out ∧ out.Perm backing := by
  induction i generalizing backing with
  | zero => exact ⟨backing, rfl, List.Perm.refl _⟩
  | succ i ih =>
    have hi : i + 1 < backing.length := by
      rcases h with h | h
      · exact h
      · omega
    have hj : rnd (i + 1) % (i + 2) < backing.length := by
      have := Nat.mod_lt (rnd (i + 1)) (show 0 < i + 2 by omega)
      omega
    obtain ⟨mid, hmid⟩ := swap_some hi hj
    have hperm := swap_perm hmid
    obtain ⟨out, hout, hp⟩ := ih mid (Or.inl (by rw [hperm.length_eq]; omega))
    refine ⟨out, ?_, hp.trans hperm⟩
    simp only [shuffleFrom, hmid, Option.some_bind]
    exact hout

theorem shuffle_some (rnd : Nat → Nat) (backing : List Key) :
    ∃ out, shuffle rnd backing.length backing = some out ∧ out.Perm backing := by
  have hn : ¬ ((backing.length : Int) < 0) := by omega
  unfold shuffle
  rw [if_neg hn]
  apply shuffleFrom_some
  simp only [Int.toNat_ofNat]
  omega

/-! ## `main` after the merge -/

theorem min_cast (n k : Nat) : min (n : Int) (k : Int) = ((Nat.min n k : Nat) : Int) := by
  have hdef : Nat.min n k = if n ≤ k then n else k := rfl
  unfold min
  rw [hdef]
  split_ifs with h1 h2 h2
  · rfl
  · omega
  · have : n = k := by omega
    rw [this]
  · rfl

theorem upTo_min (n k : Nat) :
    Slice.upTo ⟨n⟩ (min (n : Int) (k : Int)) = some ⟨Nat.min n k⟩ := by
  rw [min_cast]
  unfold Slice.upTo
  have hle : Nat.min n k ≤ n := Nat.min_le_left n k
  rw [if_pos ⟨by omega, by exact_mod_cast hle⟩]
  rfl

theorem mainTail_nonempty (fs : Fs) (rnd : Nat → Nat) (backing : List Key)
    (hne : backing ≠ []) :
    ∃ shuffled, shuffle rnd backing.length backing = some shuffled ∧ shuffled.Perm backing ∧
      mainTail fs rnd backing
        = tailSteps fs (backing.take (Nat.min backing.length 100))
            (shuffled.take (Nat.min backing.length 15)) := by
  obtain ⟨shuffled, hsh, hperm⟩ := shuffle_some rnd backing
  refine ⟨shuffled, hsh, hperm, ?_⟩
  have hpos : ((backing.length : Nat) : Int) > 0 := by
    have : 0 < backing.length := List.length_pos.mpr hne
    omega
  have h100 := upTo_min backing.length 100
  have h15 := upTo_min backing.length 15
  simp only [Nat.cast_ofNat] at h100 h15
  unfold mainTail tailSteps
  simp only [hpos, if_true, h100, h15, hsh, writeKeysToFile, Slice.read]
  by_cases h1 : fs.mkdirAll outputDir = true
  · by_cases h2 : fs.writeFile fullPath
        (fileContent (List.take (Nat.min backing.length 100) backing)) = true
    · by_cases h3 : fs.writeFile litePath
          (fileContent (List.take (Nat.min backing.length 15) shuffled)) = true
      · simp [h1, h2, h3]
      · simp [h1, h2, h3]
    · simp [h1, h2]
  · simp [h1]

theorem mainTail_empty (fs : Fs) (rnd : Nat → Nat) :
    mainTail fs rnd [] = ⟨[.println "No keys found."], .ok⟩ := by
  simp [mainTail]

/-! ## `strings.Join` -/

theorem foldl_join (sep : List Char) (rest : List (List Char)) (acc : List Char) :
    rest.foldl (fun b s => b ++ sep ++ s) acc = acc ++ rest.flatMap (fun s => sep ++ s) := by
  induction rest generalizing acc with
  | nil => simp
  | cons r rest ih =>
    rw [List.foldl_cons, ih]
    simp

theorem stringsJoin_cons (sep e : List Char) (rest : List (List Char)) :
    stringsJoin (e :: rest) sep = e ++ rest.flatMap (fun s => sep ++ s) := by
  cases rest with
  | nil => simp [stringsJoin]
  | cons r rest =>
    simp only [stringsJoin]
    exact foldl_join sep (r :: rest) e

theorem intercalate_cons (sep e : List Char) (rest : List (List Char)) :
    List.intercalate sep (e :: rest) = e ++ rest.flatMap (fun s => sep ++ s) := by
  induction rest generalizing e with
  | nil => simp [List.intercalate]
  | cons r rest ih =>
    have h := ih r
    simp only [List.intercalate, List.intersperse_cons_cons, List.flatten_cons,
      List.flatMap_cons, List.append_assoc] at h ⊢
    rw [h]

theorem stringsJoin_eq_intercalate (elems : List (List Char)) (sep : List Char) :
    stringsJoin elems sep = List.intercalate sep elems := by
  cases elems with
  | nil => simp [stringsJoin, List.intercalate]
  | cons e rest => rw [stringsJoin_cons, intercalate_cons]

theorem isKeyChar_ne_newline {c : Char} (h : isKeyChar c = true) : c ≠ '\n' := by
  rintro rfl
  revert h
  decide

theorem stringsJoin_suffix (sep : List Char) (elems : List (List Char)) (hne : elems ≠ []) :
    ∃ pre, stringsJoin elems sep = pre ++ elems.getLast hne := by
  cases elems with
  | nil => exact absurd rfl hne
  | cons e rest =>
    rw [stringsJoin_cons]
    rcases List.eq_nil_or_concat rest with rfl | ⟨init, last, rfl⟩
    · exact ⟨[], by simp⟩
    · refine ⟨e ++ init.flatMap (fun s => sep ++ s) ++ sep, ?_⟩
      simp [List.flatMap_append]

/-! ## The fan-out/fan-in protocol -/

theorem inv_init (net : List GetOutcome) : Inv net (initState net.length) where
  len := by simp [initState]
  noPanic := rfl
  addingLe := by intro i h; simp [initState] at h; omega
  goingLt := by intro i h; simp [initState] at h
  closerStarted := by simp [initState]
  started := by
    intro j hj
    simp [initState, MainPc.before, hj]
  wgCount := by simp [initState, List.countP_replicate, TaskPc.active, MainPc.pending]
  barrier := by simp [initState]
  closedIff := by simp [initState]
  sendingOk := by
    intro i keys h
    simp only [initState, List.getElem?_replicate] at h
    split_ifs at h
    simp at h
  sentNodup := by simp [initState]
  sentIff := by
    intro i
    simp only [initState, List.getElem?_replicate, List.not_mem_nil, false_iff, not_and]
    intro _
    split_ifs <;> simp
  merge := by simp [initState]
  chLen := by simp [initState]
  mergedDone := by simp [initState]

theorem inv_stepMain {net : List GetOutcome} {s s2 : State} (h : Inv net s)
    (hs : stepMain net.length s = some s2) : Inv net s2 := by
  unfold stepMain at hs
  cases hpc : s.mainPc with
  | adding i =>
    rw [hpc] at hs
    simp only at hs
    by_cases hi : i < net.length
    · rw [if_pos hi] at hs
      simp only [Option.some.injEq] at hs
      subst hs
      exact {
        len := h.len
        noPanic := h.noPanic
        addingLe := by simp
        goingLt := by simp; exact hi
        closerStarted := by simpa [hpc] using h.closerStarted
        started := by simpa [hpc, MainPc.before] using h.started
        wgCount := by
          have := h.wgCount
          simp only [hpc, MainPc.pending] at this ⊢
          rw [this]; push_cast; ring
        barrier := h.barrier
        closedIff := h.closedIff
        sendingOk := h.sendingOk
        sentNodup := h.sentNodup
        sentIff := h.sentIff
        merge := h.merge
        chLen := h.chLen
        mergedDone := by simp }
    · rw [if_neg hi] at hs
      simp only [Option.some.injEq] at hs
      subst hs
      have hle := h.addingLe i hpc
      have hcl : s.closer = .notStarted := by
        rw [h.closerStarted]; simp [hpc]
      exact {
        len := h.len
        noPanic := h.noPanic
        addingLe := by simp
        goingLt := by simp
        closerStarted := by simp
        started := by
          intro j hj
          have := h.started j hj
          simp only [hpc, MainPc.before] at this ⊢
          rw [this]
          constructor
          · intro h2; omega
          · intro h2; exact absurd h2 id
        wgCount := by
          have := h.wgCount
          simp only [hpc, MainPc.pending] at this ⊢
          exact this
        barrier := by simp
        closedIff := by
          have := h.closedIff
          simp only [hcl] at this
          simp only [this]
          simp
        sendingOk := h.sendingOk
        sentNodup := h.sentNodup
        sentIff := h.sentIff
        merge := h.merge
        chLen := h.chLen
        mergedDone := by simp }
  | going i =>
    rw [hpc] at hs
    simp only [Option.some.injEq] at hs
    subst hs
    have hi := h.goingLt i hpc
    have hil : i < s.tasks.length := by rw [h.len]; exact hi
    have hcl : s.closer = .notStarted := by
      rw [h.closerStarted]; simp [hpc]
    have hti : s.tasks[i]? = some .notStarted := by
      rw [h.started i hi]; simp [hpc, MainPc.before]
    have hti2 : s.tasks[i] = .notStarted := by
      rw [List.getElem?_eq_getElem hil] at hti
      simpa using hti
    exact {
      len := by simp [h.len]
      noPanic := h.noPanic
      addingLe := by simp; omega
      goingLt := by simp
      closerStarted := by simpa [hpc] using h.closerStarted
      started := by
        intro j hj
        have := h.started j hj
        simp only [hpc, MainPc.before] at this ⊢
        by_cases hij : i = j
        · subst hij
          rw [List.getElem?_set_self hil]
          simp
        · rw [List.getElem?_set_ne hij, this]
          omega
      wgCount := by
        have := h.wgCount
        simp only [hpc, MainPc.pending] at this ⊢
        rw [this, List.countP_set _ _ _ _ hil, hti2]
        simp [TaskPc.active]
      barrier := by simp [hcl]
      closedIff := h.closedIff
      sendingOk := by
        intro j keys hj
        by_cases hij : i = j
        · subst hij
          rw [List.getElem?_set_self hil] at hj
          simp at hj
        · rw [List.getElem?_set_ne hij] at hj
          exact h.sendingOk j keys hj
      sentNodup := h.sentNodup
      sentIff := by
        intro j
        by_cases hij : i = j
        · subst hij
          rw [List.getElem?_set_self hil, h.sentIff i, hti]
          simp
        · rw [List.getElem?_set_ne hij]
          exact h.sentIff j
      merge := h.merge
      chLen := h.chLen
      mergedDone := by simp }
  | collecting =>
    rw [hpc] at hs
    simp only at hs
    cases hch : s.keysCh with
    | nil =>
      rw [hch] at hs
      simp only at hs
      by_cases hc : s.closed = true
      · rw [if_pos hc] at hs
        simp only [Option.some.injEq] at hs
        subst hs
        exact {
          len := h.len
          noPanic := h.noPanic
          addingLe := by simp
          goingLt := by simp
          closerStarted := by simpa [hpc] using h.closerStarted
          started := by simpa [hpc, MainPc.before] using h.started
          wgCount := by simpa [hpc, MainPc.pending] using h.wgCount
          barrier := h.barrier
          closedIff := h.closedIff
          sendingOk := h.sendingOk
          sentNodup := h.sentNodup
          sentIff := h.sentIff
          merge := by simpa [hch] using h.merge
          chLen := by simp
          mergedDone := by intro _; exact ⟨hc, rfl⟩ }
      · rw [if_neg hc] at hs
        exact absurd hs (by simp)
    | cons keys rest =>
      rw [hch] at hs
      simp only [Option.some.injEq] at hs
      subst hs
      exact {
        len := h.len
        noPanic := h.noPanic
        addingLe := by simp
        goingLt := by simp
        closerStarted := by simpa [hpc] using h.closerStarted
        started := by simpa [hpc, MainPc.before] using h.started
        wgCount := by simpa [hpc, MainPc.pending] using h.wgCount
        barrier := h.barrier
        closedIff := h.closedIff
        sendingOk := h.sendingOk
        sentNodup := h.sentNodup
        sentIff := h.sentIff
        merge := by
          have := h.merge
          rw [hch] at this
          simp only [this, List.flatten_cons, List.append_assoc]
        chLen := by
          have := h.chLen
          rw [hch] at this
          simp only [List.length_cons] at this
          simp only
          omega
        mergedDone := by simp }
  | merged =>
    rw [hpc] at hs
    exact absurd hs (by simp)

theorem started_set {net : List GetOutcome} {s : State} (h : Inv net s) {i : Nat}
    {pc new : TaskPc} (hti : s.tasks[i]? = some pc) (hpc : pc ≠ .notStarted)
    (hnew : new ≠ .notStarted) (j : Nat) (hj : j < net.length) :
    (s.tasks.set i new)[j]? = some .notStarted ↔ s.mainPc.before j := by
  obtain ⟨hil, _⟩ := List.getElem?_eq_some.mp hti
  by_cases hij : i = j
  · subst hij
    rw [List.getElem?_set_self hil, ← h.started i hj, hti]
    simp only [Option.some.injEq]
    exact ⟨fun h2 => absurd h2 hnew, fun h2 => absurd h2 hpc⟩
  · rw [List.getElem?_set_ne hij]
    exact h.started j hj

theorem not_barrier {net : List GetOutcome} {s : State} (h : Inv net s) {i : Nat}
    {pc : TaskPc} (hti : s.tasks[i]? = some pc) (hpc : pc ≠ .done) :
    ¬ (s.closer = .closing ∨ s.closer = .done) := by
  intro hc
  obtain ⟨hil, _⟩ := List.getElem?_eq_some.mp hti
  have := h.barrier hc i (by rw [← h.len]; exact hil)
  rw [hti] at this
  simp only [Option.some.injEq] at this
  exact hpc this

theorem sendingOk_set {net : List GetOutcome} {s : State} (h : Inv net s) {i : Nat}
    {new : TaskPc} (hil : i < s.tasks.length)
    (hnew : ∀ keys, new = .sending keys →
      ∃ o, net[i]? = some o ∧ fetchKeysFromURL o = (keys, none))
    (j : Nat) (keys : List Key) (hj : (s.tasks.set i new)[j]? = some (TaskPc.sending keys)) :
    ∃ o, net[j]? = some o ∧ fetchKeysFromURL o = (keys, none) := by
  by_cases hij : i = j
  · subst hij
    rw [List.getElem?_set_self hil] at hj
    simp only [Option.some.injEq] at hj
    exact hnew keys hj
  · rw [List.getElem?_set_ne hij] at hj
    exact h.sendingOk j keys hj

theorem wg_pos_of_active {net : List GetOutcome} {s : State} (h : Inv net s) {i : Nat}
    {pc : TaskPc} (hti : s.tasks[i]? = some pc) (hpc : pc.active = true) : 0 < s.wg := by
  obtain ⟨hil, hget⟩ := List.getElem?_eq_some.mp hti
  have := List.boole_getElem_le_countP TaskPc.active s.tasks i hil
  rw [hget, hpc] at this
  simp only [if_true] at this
  rw [h.wgCount]
  omega

theorem countP_set_add (l : List TaskPc) (i : Nat) (hil : i < l.length) (new : TaskPc) :
    List.countP TaskPc.active (l.set i new) + (if TaskPc.active l[i] = true then 1 else 0)
      = List.countP TaskPc.active l + (if TaskPc.active new = true then 1 else 0) := by
  have h1 := List.countP_set TaskPc.active l i new hil
  have h2 := List.boole_getElem_le_countP TaskPc.active l i hil
  omega

theorem wgCount_same {net : List GetOutcome} {s : State} (h : Inv net s) {i : Nat}
    (hil : i < s.tasks.length) (new : TaskPc)
    (hact : TaskPc.active s.tasks[i] = TaskPc.active new) :
    s.wg = ((List.countP TaskPc.active (s.tasks.set i new) + s.mainPc.pending : Nat) : Int) := by
  have h1 := countP_set_add s.tasks i hil new
  rw [hact] at h1
  rw [h.wgCount]
  congr 1
  omega

theorem inv_stepTask {net : List GetOutcome} {i : Nat} {s s2 : State} (h : Inv net s)
    (hs : stepTask net i s = some s2) : Inv net s2 := by
  unfold stepTask at hs
  cases hti : s.tasks[i]? with
  | none => rw [hti] at hs; simp at hs
  | some pc =>
    obtain ⟨hil, hget⟩ := List.getElem?_eq_some.mp hti
    rw [hti] at hs
    cases pc with
    | notStarted => simp at hs
    | done => simp at hs
    | fetching =>
      simp only at hs
      cases hn : net[i]? with
      | none => rw [hn] at hs; simp at hs
      | some o =>
        rw [hn] at hs
        simp only at hs
        have hnb := not_barrier h hti (by simp)
        have hnotin : i ∉ s.sent := by
          rw [h.sentIff i, hti]; simp
        cases hf : fetchKeysFromURL o with
        | mk keys err =>
          rw [hf] at hs
          cases err with
          | none =>
            simp only [Option.some.injEq] at hs
            subst hs
            exact {
              len := by simp [h.len]
              noPanic := h.noPanic
              addingLe := h.addingLe
              goingLt := h.goingLt
              closerStarted := h.closerStarted
              started := started_set h hti (by simp) (by simp)
              wgCount := wgCount_same h hil _ (by rw [hget]; rfl)
              barrier := fun hc => absurd hc hnb
              closedIff := h.closedIff
              sendingOk := sendingOk_set h hil (by
                intro k hk
                simp only [TaskPc.sending.injEq] at hk
                subst hk
                exact ⟨o, hn, hf⟩)
              sentNodup := h.sentNodup
              sentIff := by
                intro j
                by_cases hij : i = j
                · subst hij
                  simp only [List.getElem?_set_self hil]
                  simp [hnotin]
                · simp only [List.getElem?_set_ne hij]
                  exact h.sentIff j
              merge := h.merge
              chLen := h.chLen
              mergedDone := h.mergedDone }
          | some e =>
            simp only [Option.some.injEq] at hs
            subst hs
            have hfail : ¬ Succeeds net i := by
              rintro ⟨o2, ho2, hok⟩
              rw [hn] at ho2
              simp only [Option.some.injEq] at ho2
              subst ho2
              rw [hf] at hok
              simp at hok
            exact {
              len := by simp [h.len]
              noPanic := h.noPanic
              addingLe := h.addingLe
              goingLt := h.goingLt
              closerStarted := h.closerStarted
              started := started_set h hti (by simp) (by simp)
              wgCount := wgCount_same h hil _ (by rw [hget]; rfl)
              barrier := fun hc => absurd hc hnb
              closedIff := h.closedIff
              sendingOk := sendingOk_set h hil (by simp)
              sentNodup := h.sentNodup
              sentIff := by
                intro j
                by_cases hij : i = j
                · subst hij
                  simp only [List.getElem?_set_self hil]
                  simp [hnotin, hfail]
                · simp only [List.getElem?_set_ne hij]
                  exact h.sentIff j
              merge := h.merge
              chLen := h.chLen
              mergedDone := h.mergedDone }
    | sending keys =>
      simp only at hs
      have hnb := not_barrier h hti (by simp)
      have hncl : ¬ (s.closed = true) := by
        rw [h.closedIff]
        exact fun hc => hnb (Or.inr hc)
      rw [if_neg hncl] at hs
      by_cases hcap : s.keysCh.length < net.length
      · rw [if_pos hcap] at hs
        simp only [Option.some.injEq] at hs
        subst hs
        obtain ⟨o, hn, hf⟩ := h.sendingOk i keys hti
        have hnotin : i ∉ s.sent := by
          rw [h.sentIff i, hti]; simp
        have hsucc : Succeeds net i := ⟨o, hn, by rw [hf]⟩
        have hkeys : keysOf net i = keys := by
          unfold keysOf
          rw [hn]
          simp only [hf]
        exact {
          len := by simp [h.len]
          noPanic := h.noPanic
          addingLe := h.addingLe
          goingLt := h.goingLt
          closerStarted := h.closerStarted
          started := started_set h hti (by simp) (by simp)
          wgCount := wgCount_same h hil _ (by rw [hget]; rfl)
          barrier := fun hc => absurd hc hnb
          closedIff := h.closedIff
          sendingOk := sendingOk_set h hil (by simp)
          sentNodup := by
            simp only
            rw [List.nodup_append]
            refine ⟨h.sentNodup, by simp, ?_⟩
            simp only [List.disjoint_singleton]
            exact hnotin
          sentIff := by
            intro j
            by_cases hij : i = j
            · subst hij
              simp only [List.getElem?_set_self hil]
              simp [hsucc]
            · simp only [List.getElem?_set_ne hij, List.mem_append, List.mem_singleton]
              rw [h.sentIff j]
              constructor
              · rintro (h1 | h1)
                · exact h1
                · exact absurd h1.symm hij
              · intro h1; exact Or.inl h1
          merge := by
            have := h.merge
            simp only [List.map_append, List.flatten_append, List.map_cons, List.map_nil,
              List.flatten_cons, List.flatten_nil, List.append_nil, hkeys, this,
              List.append_assoc]
          chLen := by
            have := h.chLen
            simp only [List.length_append, List.length_singleton]
            omega
          mergedDone := by
            intro hm
            have := h.mergedDone hm
            exact absurd this.1 hncl }
      · rw [if_neg hcap] at hs
        simp at hs
    | exiting =>
      simp only at hs
      have hwg := wg_pos_of_active h hti rfl
      have hnb := not_barrier h hti (by simp)
      rw [if_pos hwg] at hs
      simp only [Option.some.injEq] at hs
      subst hs
      exact {
        len := by simp [h.len]
        noPanic := h.noPanic
        addingLe := h.addingLe
        goingLt := h.goingLt
        closerStarted := h.closerStarted
        started := started_set h hti (by simp) (by simp)
        wgCount := by
          have h1 := countP_set_add s.tasks i hil .done
          rw [hget] at h1
          simp only [TaskPc.active, if_true, Bool.false_eq_true, if_false] at h1
          have := h.wgCount
          simp only at this ⊢
          rw [this]
          omega
        barrier := fun hc => absurd hc hnb
        closedIff := h.closedIff
        sendingOk := sendingOk_set h hil (by simp)
        sentNodup := h.sentNodup
        sentIff := by
          intro j
          by_cases hij : i = j
          · subst hij
            simp only [List.getElem?_set_self hil]
            rw [h.sentIff i, hti]
            simp
          · simp only [List.getElem?_set_ne hij]
            exact h.sentIff j
        merge := h.merge
        chLen := h.chLen
        mergedDone := h.mergedDone }

theorem inv_stepCloser {net : List GetOutcome} {s s2 : State} (h : Inv net s)
    (hs : stepCloser s = some s2) : Inv net s2 := by
  unfold stepCloser at hs
  cases hc : s.closer with
  | notStarted => rw [hc] at hs; simp at hs
  | done => rw [hc] at hs; simp at hs
  | waiting =>
    rw [hc] at hs
    simp only at hs
    by_cases hwg : s.wg = 0
    · rw [if_pos hwg] at hs
      simp only [Option.some.injEq] at hs
      subst hs
      have hmain : s.mainPc = .collecting ∨ s.mainPc = .merged := by
        by_contra hcon
        have := h.closerStarted.mpr hcon
        rw [hc] at this
        exact absurd this (by simp)
      have hcount : List.countP TaskPc.active s.tasks = 0 := by
        have := h.wgCount
        rw [hwg] at this
        omega
      exact {
        len := h.len
        noPanic := h.noPanic
        addingLe := h.addingLe
        goingLt := h.goingLt
        closerStarted := by
          have := h.closerStarted
          simp only [hc] at this
          simp only
          constructor
          · intro h2; exact absurd h2 (by simp)
          · intro h2; exact absurd hmain h2
        started := h.started
        wgCount := h.wgCount
        barrier := by
          intro _ j hj
          have hjl : j < s.tasks.length := by rw [h.len]; exact hj
          have hns : ¬ (s.tasks[j]? = some .notStarted) := by
            rw [h.started j hj]
            rcases hmain with hm | hm <;> simp [hm, MainPc.before]
          have hna := List.countP_eq_zero.mp hcount s.tasks[j] (List.getElem_mem hjl)
          simp only [List.getElem?_eq_getElem hjl, Option.some.injEq] at hns ⊢
          cases hpc : s.tasks[j] with
          | notStarted => exact absurd hpc hns
          | fetching => rw [hpc] at hna; simp [TaskPc.active] at hna
          | sending k => rw [hpc] at hna; simp [TaskPc.active] at hna
          | exiting => rw [hpc] at hna; simp [TaskPc.active] at hna
          | done => rfl
        closedIff := by
          have := h.closedIff
          simp only [hc] at this
          simp only [this]
          simp
        sendingOk := h.sendingOk
        sentNodup := h.sentNodup
        sentIff := h.sentIff
        merge := h.merge
        chLen := h.chLen
        mergedDone := h.mergedDone }
    · rw [if_neg hwg] at hs
      simp at hs
  | closing =>
    rw [hc] at hs
    simp only at hs
    have hncl : ¬ (s.closed = true) := by
      rw [h.closedIff, hc]; simp
    rw [if_neg hncl] at hs
    simp only [Option.some.injEq] at hs
    subst hs
    exact {
      len := h.len
      noPanic := h.noPanic
      addingLe := h.addingLe
      goingLt := h.goingLt
      closerStarted := by simpa [hc] using h.closerStarted
      started := h.started
      wgCount := h.wgCount
      barrier := fun _ => h.barrier (Or.inl hc)
      closedIff := by simp
      sendingOk := h.sendingOk
      sentNodup := h.sentNodup
      sentIff := h.sentIff
      merge := h.merge
      chLen := h.chLen
      mergedDone := by
        intro hm
        exact ⟨rfl, (h.mergedDone hm).2⟩ }

theorem inv_step {net : List GetOutcome} {a : Action} {s s2 : State} (h : Inv net s)
    (hs : step net a s = some s2) : Inv net s2 := by
  unfold step at hs
  rw [h.noPanic] at hs
  simp only [Bool.false_eq_true, if_false] at hs
  cases a with
  | main => exact inv_stepMain h hs
  | task i => exact inv_stepTask h hs
  | closer => exact inv_stepCloser h hs

theorem inv_exec {net : List GetOutcome} (sched : List Action) {s s2 : State} (h : Inv net s)
    (hs : exec net sched s = some s2) : Inv net s2 := by
  induction sched generalizing s with
  | nil =>
    simp only [exec, Option.some.injEq] at hs
    subst hs
    exact h
  | cons a sched ih =>
    simp only [exec] at hs
    cases hst : step net a s with
    | none => rw [hst] at hs; simp at hs
    | some s1 =>
      rw [hst] at hs
      exact ih (inv_step h hst) hs

theorem inv_of_reachable {net : List GetOutcome} {s : State} (h : Reachable net s) :
    Inv net s := by
  obtain ⟨sched, hs⟩ := h
  exact inv_exec sched (inv_init net) hs

theorem exec_append (net : List GetOutcome) (a b : List Action) (s : State) :
    exec net (a ++ b) s = (exec net a s).bind (exec net b) := by
  induction a generalizing s with
  | nil => simp [exec]
  | cons x a ih =>
    simp only [List.cons_append, exec]
    cases step net x s with
    | none => simp
    | some s1 => simp [ih]

theorem reachable_step {net : List GetOutcome} {a : Action} {s s2 : State}
    (h : Reachable net s) (hs : step net a s = some s2) : Reachable net s2 := by
  obtain ⟨sched, hsched⟩ := h
  refine ⟨sched ++ [a], ?_⟩
  rw [exec_append, hsched]
  simp [exec, hs]

/-! ## Capacity, progress and termination -/

theorem length_le_of_nodup_lt (l : List Nat) (n : Nat) (hnd : l.Nodup)
    (hlt : ∀ x ∈ l, x < n) : l.length ≤ n := by
  have hsub : l ⊆ List.range n := fun x hx => List.mem_range.mpr (hlt x hx)
  have := (List.subperm_of_subset hnd hsub).length_le
  simpa using this

theorem succeeds_lt {net : List GetOutcome} {i : Nat} (h : Succeeds net i) : i < net.length := by
  obtain ⟨o, ho, _⟩ := h
  exact (List.getElem?_eq_some.mp ho).1

theorem sent_length_le {net : List GetOutcome} {s : State} (h : Inv net s) :
    s.sent.length ≤ net.length :=
  length_le_of_nodup_lt s.sent net.length h.sentNodup
    (fun x hx => succeeds_lt ((h.sentIff x).mp hx).1)

theorem sent_length_lt {net : List GetOutcome} {s : State} (h : Inv net s) {i : Nat}
    {keys : List Key} (hti : s.tasks[i]? = some (TaskPc.sending keys)) :
    s.sent.length < net.length := by
  have hnotin : i ∉ s.sent := by
    rw [h.sentIff i, hti]; simp
  obtain ⟨o, ho, _⟩ := h.sendingOk i keys hti
  have hi : i < net.length := (List.getElem?_eq_some.mp ho).1
  have hnd : (i :: s.sent).Nodup := List.nodup_cons.mpr ⟨hnotin, h.sentNodup⟩
  have := length_le_of_nodup_lt (i :: s.sent) net.length hnd (by
    intro x hx
    rcases List.mem_cons.mp hx with rfl | hx
    · exact hi
    · exact succeeds_lt ((h.sentIff x).mp hx).1)
  simp only [List.length_cons] at this
  omega

/-- A goroutine whose next action is a send finds room in the buffer. -/
theorem send_room {net : List GetOutcome} {s : State} (h : Inv net s) {i : Nat}
    {keys : List Key} (hti : s.tasks[i]? = some (TaskPc.sending keys)) :
    s.keysCh.length < net.length :=
  lt_of_le_of_lt h.chLen (sent_length_lt h hti)

theorem progress {net : List GetOutcome} {s : State} (h : Inv net s)
    (hm : s.mainPc ≠ .merged) : ∃ a s2, step net a s = some s2 := by
  have hstep : ∀ a, step net a s = match a with
      | .main => stepMain net.length s
      | .task i => stepTask net i s
      | .closer => stepCloser s := by
    intro a
    unfold step
    rw [h.noPanic]
    simp
  cases hpc : s.mainPc with
  | merged => exact absurd hpc hm
  | adding i =>
    refine ⟨.main, ?_⟩
    rw [hstep]
    simp only [stepMain, hpc]
    split_ifs <;> exact ⟨_, rfl⟩
  | going i =>
    refine ⟨.main, ?_⟩
    rw [hstep]
    simp only [stepMain, hpc]
    exact ⟨_, rfl⟩
  | collecting =>
    cases hch : s.keysCh with
    | cons keys rest =>
      refine ⟨.main, ?_⟩
      rw [hstep]
      simp only [stepMain, hpc, hch]
      exact ⟨_, rfl⟩
    | nil =>
      by_cases hcl : s.closed = true
      · refine ⟨.main, ?_⟩
        rw [hstep]
        simp only [stepMain, hpc, hch, hcl, if_true]
        exact ⟨_, rfl⟩
      · have hcs : s.closer ≠ .notStarted := by
          intro hc
          have := h.closerStarted.mp hc
          exact this (Or.inl hpc)
        have hcd : s.closer ≠ .done := fun hc => hcl (h.closedIff.mpr hc)
        cases hc : s.closer with
        | notStarted => exact absurd hc hcs
        | done => exact absurd hc hcd
        | closing =>
          refine ⟨.closer, ?_⟩
          rw [hstep]
          simp only [stepCloser, hc, hcl]
          exact ⟨_, rfl⟩
        | waiting =>
          by_cases hwg : s.wg = 0
          · refine ⟨.closer, ?_⟩
            rw [hstep]
            simp only [stepCloser, hc, hwg, if_true]
            exact ⟨_, rfl⟩
          · have hcount : 0 < List.countP TaskPc.active s.tasks := by
              have := h.wgCount
              simp only [hpc, MainPc.pending] at this
              omega
            obtain ⟨pc, hmem, hact⟩ := List.countP_pos_iff.mp hcount
            obtain ⟨j, hjl, hj⟩ := List.getElem_of_mem hmem
            have hjn : j < net.length := by rw [← h.len]; exact hjl
            have htj : s.tasks[j]? = some pc := by
              rw [List.getElem?_eq_getElem hjl, hj]
            refine ⟨.task j, ?_⟩
            rw [hstep]
            simp only [stepTask, htj]
            cases pc with
            | notStarted => simp [TaskPc.active] at hact
            | done => simp [TaskPc.active] at hact
            | fetching =>
              simp only [List.getElem?_eq_getElem hjn]
              cases hf : fetchKeysFromURL net[j] with
              | mk keys err =>
                cases err with
                | none => exact ⟨_, rfl⟩
                | some e => exact ⟨_, rfl⟩
            | sending keys =>
              have hroom := send_room h htj
              simp only [hcl, hroom, if_true]
              exact ⟨_, rfl⟩
            | exiting =>
              simp only
              split_ifs <;> exact ⟨_, rfl⟩

theorem sum_weight_set (l : List TaskPc) (i : Nat) (hil : i < l.length) (new : TaskPc) :
    ((l.set i new).map TaskPc.weight).sum + TaskPc.weight l[i]
      = (l.map TaskPc.weight).sum + TaskPc.weight new := by
  induction l generalizing i with
  | nil => simp at hil
  | cons x l ih =>
    cases i with
    | zero =>
      simp only [List.set_cons_zero, List.map_cons, List.sum_cons, List.getElem_cons_zero]
      omega
    | succ i =>
      simp only [List.length_cons, Nat.add_lt_add_iff_right] at hil
      have := ih i hil
      simp only [List.set_cons_succ, List.map_cons, List.sum_cons, List.getElem_cons_succ]
      omega

theorem measure_stepMain {net : List GetOutcome} {s s2 : State} (h : Inv net s)
    (hs : stepMain net.length s = some s2) :
    s2.measure net.length < s.measure net.length := by
  unfold stepMain at hs
  cases hpc : s.mainPc with
  | adding i =>
    rw [hpc] at hs
    simp only at hs
    have hcl : s.closer = .notStarted := by
      rw [h.closerStarted]; simp [hpc]
    by_cases hi : i < net.length
    · rw [if_pos hi] at hs
      simp only [Option.some.injEq] at hs
      subst hs
      simp only [State.measure, hpc]
      omega
    · rw [if_neg hi] at hs
      simp only [Option.some.injEq] at hs
      subst hs
      simp only [State.measure, hpc, hcl]
      omega
  | going i =>
    rw [hpc] at hs
    simp only [Option.some.injEq] at hs
    subst hs
    have hi := h.goingLt i hpc
    have hil : i < s.tasks.length := by rw [h.len]; exact hi
    have hti : s.tasks[i]? = some .notStarted := by
      rw [h.started i hi]; simp [hpc, MainPc.before]
    have hti2 : s.tasks[i] = .notStarted := by
      rw [List.getElem?_eq_getElem hil] at hti
      simpa using hti
    have hsum := sum_weight_set s.tasks i hil .fetching
    rw [hti2] at hsum
    simp only [TaskPc.weight] at hsum
    simp only [State.measure, hpc]
    omega
  | collecting =>
    rw [hpc] at hs
    simp only at hs
    cases hch : s.keysCh with
    | nil =>
      rw [hch] at hs
      simp only at hs
      by_cases hc : s.closed = true
      · rw [if_pos hc] at hs
        simp only [Option.some.injEq] at hs
        subst hs
        simp only [State.measure, hpc, hch, List.length_nil]
        omega
      · rw [if_neg hc] at hs
        exact absurd hs (by simp)
    | cons keys rest =>
      rw [hch] at hs
      simp only [Option.some.injEq] at hs
      subst hs
      simp only [State.measure, hpc, hch, List.length_cons]
      omega
  | merged =>
    rw [hpc] at hs
    exact absurd hs (by simp)

theorem measure_stepTask {net : List GetOutcome} {i : Nat} {s s2 : State} (h : Inv net s)
    (hs : stepTask net i s = some s2) :
    s2.measure net.length < s.measure net.length := by
  unfold stepTask at hs
  cases hti : s.tasks[i]? with
  | none => rw [hti] at hs; simp at hs
  | some pc =>
    obtain ⟨hil, hget⟩ := List.getElem?_eq_some.mp hti
    rw [hti] at hs
    cases pc with
    | notStarted => simp at hs
    | done => simp at hs
    | fetching =>
      simp only at hs
      cases hn : net[i]? with
      | none => rw [hn] at hs; simp at hs
      | some o =>
        rw [hn] at hs
        simp only at hs
        cases hf : fetchKeysFromURL o with
        | mk keys err =>
          rw [hf] at hs
          cases err with
          | none =>
            simp only [Option.some.injEq] at hs
            subst hs
            have hsum := sum_weight_set s.tasks i hil (.sending keys)
            rw [hget] at hsum
            simp only [TaskPc.weight] at hsum
            simp only [State.measure]
            omega
          | some e =>
            simp only [Option.some.injEq] at hs
            subst hs
            have hsum := sum_weight_set s.tasks i hil .exiting
            rw [hget] at hsum
            simp only [TaskPc.weight] at hsum
            simp only [State.measure]
            omega
    | sending keys =>
      simp only at hs
      have hnb := not_barrier h hti (by simp)
      have hncl : ¬ (s.closed = true) := by
        rw [h.closedIff]
        exact fun hc => hnb (Or.inr hc)
      rw [if_neg hncl] at hs
      by_cases hcap : s.keysCh.length < net.length
      · rw [if_pos hcap] at hs
        simp only [Option.some.injEq] at hs
        subst hs
        have hsum := sum_weight_set s.tasks i hil .exiting
        rw [hget] at hsum
        simp only [TaskPc.weight] at hsum
        simp only [State.measure, List.length_append, List.length_singleton]
        omega
      · rw [if_neg hcap] at hs
        simp at hs
    | exiting =>
      simp only at hs
      have hwg := wg_pos_of_active h hti rfl
      rw [if_pos hwg] at hs
      simp only [Option.some.injEq] at hs
      subst hs
      have hsum := sum_weight_set s.tasks i hil .done
      rw [hget] at hsum
      simp only [TaskPc.weight] at hsum
      simp only [State.measure]
      omega

theorem measure_stepCloser {net : List GetOutcome} {s s2 : State} (h : Inv net s)
    (hs : stepCloser s = some s2) :
    s2.measure net.length < s.measure net.length := by
  unfold stepCloser at hs
  cases hc : s.closer with
  | notStarted => rw [hc] at hs; simp at hs
  | done => rw [hc] at hs; simp at hs
  | waiting =>
    rw [hc] at hs
    simp only at hs
    by_cases hwg : s.wg = 0
    · rw [if_pos hwg] at hs
      simp only [Option.some.injEq] at hs
      subst hs
      simp only [State.measure, hc]
      omega
    · rw [if_neg hwg] at hs
      simp at hs
  | closing =>
    rw [hc] at hs
    simp only at hs
    have hncl : ¬ (s.closed = true) := by
      rw [h.closedIff, hc]; simp
    rw [if_neg hncl] at hs
    simp only [Option.some.injEq] at hs
    subst hs
    simp only [State.measure, hc]
    omega

theorem measure_step {net : List GetOutcome} {a : Action} {s s2 : State} (h : Inv net s)
    (hs : step net a s = some s2) : s2.measure net.length < s.measure net.length := by
  unfold step at hs
  rw [h.noPanic] at hs
  simp only [Bool.false_eq_true, if_false] at hs
  cases a with
  | main => exact measure_stepMain h hs
  | task i => exact measure_stepTask h hs
  | closer => exact measure_stepCloser h hs

/-- From every state of the protocol some schedule leads to the end of the
collecting loop. -/
theorem exists_merged {net : List GetOutcome} (k : Nat) (s : State) (h : Inv net s)
    (hk : s.measure net.length ≤ k) :
    ∃ sched s2, exec net sched s = some s2 ∧ s2.mainPc = .merged := by
  induction k generalizing s with
  | zero =>
    by_cases hm : s.mainPc = .merged
    · exact ⟨[], s, rfl, hm⟩
    · obtain ⟨a, s1, hs1⟩ := progress h hm
      have := measure_step h hs1
      omega
  | succ k ih =>
    by_cases hm : s.mainPc = .merged
    · exact ⟨[], s, rfl, hm⟩
    · obtain ⟨a, s1, hs1⟩ := progress h hm
      have hlt := measure_step h hs1
      obtain ⟨sched, s2, hs2, hm2⟩ := ih s1 (inv_step h hs1) (by omega)
      refine ⟨a :: sched, s2, ?_, hm2⟩
      simp only [exec, hs1, Option.some_bind]
      exact hs2

/-! ## What a run after the merge writes -/

theorem tailSteps_exit (fs : Fs) (full lite : List Key) : (tailSteps fs full lite).exit ≠ .panic := by
  unfold tailSteps
  split_ifs <;> simp

theorem tailSteps_writes (fs : Fs) (full lite : List Key) (path : String) (c : List Char)
    (ok : Bool) (h : Event.writeFile path c ok ∈ (tailSteps fs full lite).events) :
    (path = fullPath ∧ c = fileContent full) ∨ (path = litePath ∧ c = fileContent lite) := by
  unfold tailSteps at h
  split_ifs at h <;> simp at h <;> aesop

theorem tailSteps_ok (fs : Fs) (full lite : List Key) (h1 : fs.mkdirAll outputDir = true)
    (h2 : ∀ c, fs.writeFile fullPath c = true) (h3 : ∀ c, fs.writeFile litePath c = true) :
    tailSteps fs full lite
      = ⟨[.mkdirAll outputDir true, .writeFile fullPath (fileContent full) true,
          .writeFile litePath (fileContent lite) true, .println "successfully."], .ok⟩ := by
  unfold tailSteps
  rw [if_pos h1, if_pos (h2 _), if_pos (h3 _)]

theorem paths_ne : fullPath ≠ litePath := by decide

/-! ## Sanity checks of the embedding on concrete inputs -/

theorem demoFinal_reachable : Reachable demoNet demoFinal := ⟨demoSched, by decide⟩

theorem not_hasOccurrence_of_extract {s : List Char} (h : extractKeys s = []) :
    ¬ HasOccurrence s := fun ho => extractKeys_ne_nil_of_hasOccurrence ho h

theorem demoItems_segments : ∀ p ∈ demoItems, ¬ HasOccurrence p.2 := by
  intro p hp
  apply not_hasOccurrence_of_extract
  simp only [demoItems, List.mem_cons, List.mem_singleton, List.not_mem_nil, or_false] at hp
  rcases hp with rfl | rfl <;> decide

/-- Reading the header `fullKeys` again after the shuffle shows the shuffled
backing array: the slice is an alias, not a copy. -/
theorem fullKeys_alias :
    ∃ fullKeys shuffled,
      Slice.upTo ⟨2⟩ (min 2 100) = some fullKeys ∧
      shuffle (fun _ => 0) 2 ["a".toList, "b".toList] = some shuffled ∧
      fullKeys.read shuffled ≠ fullKeys.read ["a".toList, "b".toList] :=
  ⟨⟨2⟩, ["b".toList, "a".toList], by decide, by decide, by decide⟩

theorem merged_all_done {net : List GetOutcome} {s : State} (h : Inv net s)
    (hm : s.mainPc = .merged) : ∀ i, i < net.length → s.tasks[i]? = some .done :=
  h.barrier (Or.inr (h.closedIff.mp (h.mergedDone hm).1))

theorem merged_sent_iff {net : List GetOutcome} {s : State} (h : Inv net s)
    (hm : s.mainPc = .merged) (i : Nat) : i ∈ s.sent ↔ Succeeds net i := by
  rw [h.sentIff i]
  constructor
  · exact fun h1 => h1.1
  · intro h1
    exact ⟨h1, Or.inr (merged_all_done h hm i (succeeds_lt h1))⟩

theorem merged_allKeys {net : List GetOutcome} {s : State} (h : Inv net s)
    (hm : s.mainPc = .merged) : s.allKeys = (s.sent.map (keysOf net)).flatten := by
  have := h.merge
  rw [(h.mergedDone hm).2] at this
  simpa using this.symm

/-! ## Whole runs -/

theorem extractKeys_eq_nil_iff (s : List Char) : extractKeys s = [] ↔ ¬ HasOccurrence s := by
  constructor
  · exact not_hasOccurrence_of_extract
  · intro h
    have := extractKeys_document s [] (by simp) h (by simp)
    simpa [document] using this

theorem exists_mapRange (m : Finset Key) : ∃ order, MapRange m order :=
  ⟨m.val.toList, Multiset.coe_toList m.val⟩

/-- Whatever the network and the filesystem do, `main` has a complete run. -/
theorem mainRun_exists (net : List GetOutcome) (fs : Fs) (rnd : Nat → Nat)
    (hlen : net.length = sources.length) : ∃ out, MainRun net fs rnd out := by
  obtain ⟨sched, s, hs, hm⟩ := exists_merged _ (initState net.length) (inv_init net) le_rfl
  obtain ⟨order, ho⟩ := exists_mapRange (uniqueKeysMap s.allKeys)
  exact ⟨_, hlen, s, order, ⟨sched, hs⟩, hm, ho, rfl⟩

/-- When no source yields a key (each fails or finds none), every complete run
prints the no-keys message, touches no file and ends normally. -/
theorem mainRun_no_keys (net : List GetOutcome) (fs : Fs) (rnd : Nat → Nat) (out : Outcome)
    (hnone : ∀ i, Succeeds net i → keysOf net i = []) (hrun : MainRun net fs rnd out) :
    out = ⟨[.println "No keys found."], .ok⟩ := by
  obtain ⟨_, s, order, hr, hm, ho, rfl⟩ := hrun
  have h := inv_of_reachable hr
  have hall : s.allKeys = [] := by
    rw [merged_allKeys h hm, List.flatten_eq_nil_iff]
    intro l hl
    obtain ⟨i, hi, rfl⟩ := List.mem_map.mp hl
    exact hnone i ((merged_sent_iff h hm i).mp hi)
  have hl := mapRange_length ho
  rw [hall] at hl
  have hcard : (uniqueKeysMap ([] : List Key)).card = 0 := rfl
  rw [hcard] at hl
  rw [keysListOf_eq, List.length_eq_zero.mp hl]
  exact mainTail_empty fs rnd

/-! ## The claims -/

/-- Claim C1: for a text `s0 <code>t1</code> s1 ... <code>tN</code> sN` whose
`ti` are non-empty over letters, digits and hyphen and whose segments `si`
contain no well-formed occurrence (malformed markers allowed), the extraction
of `fetchKeysFromURL` is exactly `[t1, ..., tN]`, in document order with
duplicates kept; a text without well-formed occurrence yields no key. -/
theorem C1_extraction_exact (s0 : List Char) (items : List (List Char × List Char))
    (htok : ∀ p ∈ items, WellFormed p.1) (hs0 : ¬ HasOccurrence s0)
    (hseg : ∀ p ∈ items, ¬ HasOccurrence p.2) :
    extractKeys (document s0 items) = items.map Prod.fst
      ∧ (items = [] → extractKeys s0 = []) := by
  refine ⟨extractKeys_document s0 items htok hs0 hseg, ?_⟩
  intro _
  have := extractKeys_document s0 [] (by simp) hs0 (by simp)
  simpa [document] using this

theorem C1_extraction_exact_witness :
    extractKeys (document demoS0 demoItems) = ["abc-123".toList, "abc-123".toList] :=
  (C1_extraction_exact demoS0 demoItems (by decide)
    (not_hasOccurrence_of_extract (by decide)) demoItems_segments).1

/-- Claim C2: `fetchKeysFromURL` succeeds exactly when the request completed,
the status code is 200 and the body was read; the result is then the
extraction of the body (an empty extraction included); for every other status
code it returns an error and no keys, and so it does on every error. -/
theorem C2_fetch_contract :
    (∀ net, (fetchKeysFromURL net).2 = none ↔ ∃ text, net = .response 200 (some text))
    ∧ (∀ text, fetchKeysFromURL (.response 200 (some text)) = (extractKeys text, none))
    ∧ (∀ code body, code ≠ 200 →
        fetchKeysFromURL (.response code body) = ([], some (.status code)))
    ∧ (∀ net, (fetchKeysFromURL net).2 ≠ none → (fetchKeysFromURL net).1 = []) := by
  refine ⟨fetch_ok_iff, ?_, ?_, fetch_error_no_keys⟩
  · intro text
    simp [fetchKeysFromURL, statusOK]
  · intro code body hc
    simp [fetchKeysFromURL, statusOK, hc]

theorem C2_fetch_contract_witness :
    fetchKeysFromURL (.response 500 (some "<code>k</code>".toList)) = ([], some (.status 500)) :=
  C2_fetch_contract.2.2.1 500 (some "<code>k</code>".toList) (by decide)

/-- Claim C3: whatever the sources answer and however the goroutines
interleave, when the collecting loop has ended `allKeys` is the concatenation,
in some order of sources, of the key lists of exactly the sources whose fetch
succeeded; a failing source adds nothing and removes nothing, so every key of
a successful source is in the unique set the artifacts are drawn from. -/
theorem C3_fanIn_isolation (net : List GetOutcome) (s : State) (hr : Reachable net s)
    (hm : s.mainPc = .merged) :
    ∃ order : List Nat, order.Nodup ∧ (∀ i, i ∈ order ↔ Succeeds net i)
      ∧ s.allKeys = (order.map (keysOf net)).flatten
      ∧ (∀ i, Succeeds net i → ∀ k ∈ keysOf net i, k ∈ uniqueKeysMap s.allKeys) := by
  have h := inv_of_reachable hr
  refine ⟨s.sent, h.sentNodup, merged_sent_iff h hm, merged_allKeys h hm, ?_⟩
  intro i hi k hk
  rw [mem_uniqueKeysMap, merged_allKeys h hm, List.mem_flatten]
  exact ⟨keysOf net i, List.mem_map.mpr ⟨i, (merged_sent_iff h hm i).mpr hi, rfl⟩, hk⟩

theorem C3_fanIn_isolation_witness :
    ∃ order : List Nat, order.Nodup ∧ (∀ i, i ∈ order ↔ Succeeds demoNet i)
      ∧ demoFinal.allKeys = (order.map (keysOf demoNet)).flatten
      ∧ (∀ i, Succeeds demoNet i →
          ∀ k ∈ keysOf demoNet i, k ∈ uniqueKeysMap demoFinal.allKeys) :=
  C3_fanIn_isolation demoNet demoFinal demoFinal_reachable rfl

/-- Claim C4: for every merged list `allKeys` and every order in which the map
is iterated, `keysList` has no two equal elements, each of its elements occurs
in `allKeys`, and it is no longer than `allKeys`. -/
theorem C4_dedupe_keysList (allKeys order : List Key)
    (h : MapRange (uniqueKeysMap allKeys) order) :
    (keysListOf order).Nodup ∧ (∀ k ∈ keysListOf order, k ∈ allKeys)
      ∧ (keysListOf order).length ≤ allKeys.length := by
  rw [keysListOf_eq]
  refine ⟨mapRange_nodup h, ?_, ?_⟩
  · intro k hk
    exact mem_uniqueKeysMap.mp ((mapRange_mem h k).mp hk)
  · rw [mapRange_length h, uniqueKeysMap_eq]
    exact List.toFinset_card_le allKeys

theorem C4_dedupe_keysList_witness :
    (keysListOf ["b".toList, "a".toList]).Nodup
      ∧ (∀ k ∈ keysListOf ["b".toList, "a".toList], k ∈ ["a".toList, "b".toList, "a".toList])
      ∧ (keysListOf ["b".toList, "a".toList]).length
          ≤ ["a".toList, "b".toList, "a".toList].length :=
  C4_dedupe_keysList ["a".toList, "b".toList, "a".toList] ["b".toList, "a".toList] (by decide)

/-- Claim C5: deduplication is idempotent: for every list `x` and every order
in which its unique set is materialised as a list, the unique set of that list
is the unique set of `x`. -/
theorem C5_dedupe_idempotent (x order : List Key) (h : MapRange (uniqueKeysMap x) order) :
    uniqueKeysMap (keysListOf order) = uniqueKeysMap x := by
  rw [keysListOf_eq]
  exact uniqueKeysMap_of_mapRange h

theorem C5_dedupe_idempotent_witness :
    uniqueKeysMap (keysListOf ["b".toList, "a".toList])
      = uniqueKeysMap ["a".toList, "b".toList, "a".toList] :=
  C5_dedupe_idempotent ["a".toList, "b".toList, "a".toList] ["b".toList, "a".toList]
    (by decide)

/-- Claim C6: for every non-empty duplicate-free `keysList` of length `n`,
every outcome of the shuffle and every filesystem, the run does not panic (no
slice expression is out of bounds), and there are a full artifact of exactly
`min n 100` keys and a lite artifact of exactly `min n 15` keys, both without
duplicate and both drawn from `keysList`, such that every file written holds
one of them under its path, and both are written when the filesystem works. -/
theorem C6_sampling_bound (fs : Fs) (rnd : Nat → Nat) (keysList : List Key)
    (hne : keysList ≠ []) (hnd : keysList.Nodup) :
    ∃ full lite : List Key,
      full.length = Nat.min keysList.length 100 ∧ lite.length = Nat.min keysList.length 15
      ∧ full.Nodup ∧ lite.Nodup ∧ (∀ k ∈ full, k ∈ keysList) ∧ (∀ k ∈ lite, k ∈ keysList)
      ∧ (mainTail fs rnd keysList).exit ≠ .panic
      ∧ (∀ path c ok, Event.writeFile path c ok ∈ (mainTail fs rnd keysList).events →
          (path = fullPath ∧ c = fileContent full) ∨ (path = litePath ∧ c = fileContent lite))
      ∧ (mainTail okFs rnd keysList).events
          = [.mkdirAll outputDir true, .writeFile fullPath (fileContent full) true,
             .writeFile litePath (fileContent lite) true, .println "successfully."] := by
  obtain ⟨shuffled, hsh, hperm, hmt⟩ := mainTail_nonempty fs rnd keysList hne
  obtain ⟨shuffled2, hsh2, _, hmt2⟩ := mainTail_nonempty okFs rnd keysList hne
  rw [hsh] at hsh2
  simp only [Option.some.injEq] at hsh2
  subst hsh2
  refine ⟨keysList.take (Nat.min keysList.length 100),
    shuffled.take (Nat.min keysList.length 15), ?_, ?_, ?_, ?_, ?_, ?_, ?_, ?_, ?_⟩
  · rw [List.length_take]
    exact Nat.min_eq_left (Nat.min_le_left _ _)
  · rw [List.length_take, hperm.length_eq]
    exact Nat.min_eq_left (Nat.min_le_left _ _)
  · exact hnd.sublist (List.take_sublist _ _)
  · exact (hperm.nodup_iff.mpr hnd).sublist (List.take_sublist _ _)
  · exact fun k hk => List.mem_of_mem_take hk
  · exact fun k hk => hperm.subset (List.mem_of_mem_take hk)
  · rw [hmt]
    exact tailSteps_exit _ _ _
  · intro path c ok hmem
    rw [hmt] at hmem
    exact tailSteps_writes _ _ _ _ _ _ hmem
  · rw [hmt2, tailSteps_ok okFs _ _ rfl (fun _ => rfl) (fun _ => rfl)]

theorem C6_sampling_bound_witness :
    ∃ full lite : List Key,
      full.length = Nat.min 3 100 ∧ lite.length = Nat.min 3 15
      ∧ full.Nodup ∧ lite.Nodup
      ∧ (∀ k ∈ full, k ∈ ["b".toList, "a".toList, "c".toList])
      ∧ (∀ k ∈ lite, k ∈ ["b".toList, "a".toList, "c".toList])
      ∧ (mainTail okFs (fun _ => 0) ["b".toList, "a".toList, "c".toList]).exit ≠ .panic
      ∧ (∀ path c ok, Event.writeFile path c ok
            ∈ (mainTail okFs (fun _ => 0) ["b".toList, "a".toList, "c".toList]).events →
          (path = fullPath ∧ c = fileContent full) ∨ (path = litePath ∧ c = fileContent lite))
      ∧ (mainTail okFs (fun _ => 0) ["b".toList, "a".toList, "c".toList]).events
          = [.mkdirAll outputDir true, .writeFile fullPath (fileContent full) true,
             .writeFile litePath (fileContent lite) true, .println "successfully."] :=
  C6_sampling_bound okFs (fun _ => 0) ["b".toList, "a".toList, "c".toList] (by decide)
    (by decide)

/-- Claim C7: the keys written to `data/full` are the first `min n 100`
elements of `keysList` in the order it had before the shuffle: the write
precedes the in-place shuffle, so the shuffle, although it changes the array
that `fullKeys` aliases, changes nothing in what was written; the keys written
to `data/lite` are the first `min n 15` elements of a permutation of that
same sequence. -/
theorem C7_full_written_before_shuffle (fs : Fs) (rnd : Nat → Nat) (keysList : List Key)
    (hne : keysList ≠ []) :
    ∃ shuffled : List Key,
      shuffle rnd keysList.length keysList = some shuffled ∧ shuffled.Perm keysList
      ∧ (∀ c ok, Event.writeFile fullPath c ok ∈ (mainTail fs rnd keysList).events →
          c = fileContent (keysList.take (Nat.min keysList.length 100)))
      ∧ (∀ c ok, Event.writeFile litePath c ok ∈ (mainTail fs rnd keysList).events →
          c = fileContent (shuffled.take (Nat.min keysList.length 15)))
      ∧ (mainTail okFs rnd keysList).events
          = [.mkdirAll outputDir true,
             .writeFile fullPath (fileContent (keysList.take (Nat.min keysList.length 100))) true,
             .writeFile litePath (fileContent (shuffled.take (Nat.min keysList.length 15))) true,
             .println "successfully."]
      ∧ (∀ fullKeys, Slice.upTo ⟨keysList.length⟩ (min keysList.length 100) = some fullKeys →
          fullKeys.read keysList = keysList.take (Nat.min keysList.length 100)
          ∧ fullKeys.read shuffled = shuffled.take (Nat.min keysList.length 100)) := by
  obtain ⟨shuffled, hsh, hperm, hmt⟩ := mainTail_nonempty fs rnd keysList hne
  obtain ⟨shuffled2, hsh2, _, hmt2⟩ := mainTail_nonempty okFs rnd keysList hne
  rw [hsh] at hsh2
  simp only [Option.some.injEq] at hsh2
  subst hsh2
  refine ⟨shuffled, hsh, hperm, ?_, ?_, ?_, ?_⟩
  · intro c ok hmem
    rw [hmt] at hmem
    rcases tailSteps_writes _ _ _ _ _ _ hmem with h1 | h1
    · exact h1.2
    · exact absurd h1.1 paths_ne
  · intro c ok hmem
    rw [hmt] at hmem
    rcases tailSteps_writes _ _ _ _ _ _ hmem with h1 | h1
    · exact absurd h1.1.symm paths_ne
    · exact h1.2
  · rw [hmt2, tailSteps_ok okFs _ _ rfl (fun _ => rfl) (fun _ => rfl)]
  · intro fullKeys hfk
    have h100 := upTo_min keysList.length 100
    simp only [Nat.cast_ofNat] at h100
    rw [h100] at hfk
    simp only [Option.some.injEq] at hfk
    subst hfk
    exact ⟨rfl, rfl⟩

theorem C7_full_written_before_shuffle_witness :
    ∃ shuffled : List Key,
      shuffle (fun _ => 0) 3 ["b".toList, "a".toList, "c".toList] = some shuffled
      ∧ shuffled.Perm ["b".toList, "a".toList, "c".toList]
      ∧ (∀ c ok, Event.writeFile fullPath c ok
            ∈ (mainTail okFs (fun _ => 0) ["b".toList, "a".toList, "c".toList]).events →
          c = fileContent (["b".toList, "a".toList, "c".toList].take (Nat.min 3 100)))
      ∧ (∀ c ok, Event.writeFile litePath c ok
            ∈ (mainTail okFs (fun _ => 0) ["b".toList, "a".toList, "c".toList]).events →
          c = fileContent (shuffled.take (Nat.min 3 15)))
      ∧ (mainTail okFs (fun _ => 0) ["b".toList, "a".toList, "c".toList]).events
          = [.mkdirAll outputDir true,
             .writeFile fullPath
               (fileContent (["b".toList, "a".toList, "c".toList].take (Nat.min 3 100))) true,
             .writeFile litePath (fileContent (shuffled.take (Nat.min 3 15))) true,
             .println "successfully."]
      ∧ (∀ fullKeys, Slice.upTo ⟨3⟩ (min 3 100) = some fullKeys →
          fullKeys.read ["b".toList, "a".toList, "c".toList]
            = ["b".toList, "a".toList, "c".toList].take (Nat.min 3 100)
          ∧ fullKeys.read shuffled = shuffled.take (Nat.min 3 100)) :=
  C7_full_written_before_shuffle okFs (fun _ => 0) ["b".toList, "a".toList, "c".toList]
    (by decide)

/-- Claim C8: if the unique set is empty, the run creates no directory, writes
neither `data/full` nor `data/lite`, prints the no-keys message and ends
normally; if the unique set is not empty and no filesystem operation fails,
the directory is created and both `data/full` and `data/lite` are written. -/
theorem C8_degenerate_case (fs : Fs) (rnd : Nat → Nat) (allKeys order : List Key)
    (h : MapRange (uniqueKeysMap allKeys) order) :
    (uniqueKeysMap allKeys = ∅ →
      mainTail fs rnd (keysListOf order) = ⟨[.println "No keys found."], .ok⟩)
    ∧ (uniqueKeysMap allKeys ≠ ∅ → fs.mkdirAll outputDir = true →
        (∀ c, fs.writeFile fullPath c = true) → (∀ c, fs.writeFile litePath c = true) →
        ∃ c1 c2, mainTail fs rnd (keysListOf order)
          = ⟨[.mkdirAll outputDir true, .writeFile fullPath c1 true,
              .writeFile litePath c2 true, .println "successfully."], .ok⟩) := by
  rw [keysListOf_eq]
  constructor
  · intro he
    have hl := mapRange_length h
    rw [he, Finset.card_empty] at hl
    rw [List.length_eq_zero.mp hl]
    exact mainTail_empty fs rnd
  · intro hne h1 h2 h3
    have hne2 : order ≠ [] := by
      rintro rfl
      have hl := mapRange_length h
      simp only [List.length_nil] at hl
      exact hne (Finset.card_eq_zero.mp hl.symm)
    obtain ⟨shuffled, _, _, hmt⟩ := mainTail_nonempty fs rnd order hne2
    exact ⟨_, _, by rw [hmt, tailSteps_ok fs _ _ h1 h2 h3]⟩

theorem C8_degenerate_case_witness :
    (uniqueKeysMap ["a".toList, "b".toList, "a".toList] = ∅ →
      mainTail okFs (fun _ => 0) (keysListOf ["b".toList, "a".toList])
        = ⟨[.println "No keys found."], .ok⟩)
    ∧ (uniqueKeysMap ["a".toList, "b".toList, "a".toList] ≠ ∅ →
        okFs.mkdirAll outputDir = true →
        (∀ c, okFs.writeFile fullPath c = true) → (∀ c, okFs.writeFile litePath c = true) →
        ∃ c1 c2, mainTail okFs (fun _ => 0) (keysListOf ["b".toList, "a".toList])
          = ⟨[.mkdirAll outputDir true, .writeFile fullPath c1 true,
              .writeFile litePath c2 true, .println "successfully."], .ok⟩) :=
  C8_degenerate_case okFs (fun _ => 0) ["a".toList, "b".toList, "a".toList]
    ["b".toList, "a".toList] (by decide)

/-- Claim C9: for every non-empty list of keys as the extractor produces them
(each non-empty, over letters, digits and hyphen), `writeKeysToFile` writes the
keys joined by single newlines and nothing else: the content neither starts
nor ends with a newline, splitting it on newline gives back the list of keys,
and so the number of lines is the number of keys. -/
theorem C9_output_format (fs : Fs) (path : String) (keys : List Key) (hne : keys ≠ [])
    (hk : ∀ k ∈ keys, WellFormed k) :
    (writeKeysToFile fs keys path).1
        = Event.writeFile path (fileContent keys) (fs.writeFile path (fileContent keys))
    ∧ fileContent keys = List.intercalate ['\n'] keys
    ∧ (fileContent keys).splitOn '\n' = keys
    ∧ ((fileContent keys).splitOn '\n').length = keys.length
    ∧ (fileContent keys).head? ≠ some '\n'
    ∧ (fileContent keys).getLast? ≠ some '\n' := by
  have hnl : ∀ l ∈ keys, '\n' ∉ l := fun l hl hmem =>
    isKeyChar_ne_newline ((hk l hl).2 _ hmem) rfl
  have hint : fileContent keys = List.intercalate ['\n'] keys :=
    stringsJoin_eq_intercalate keys ['\n']
  have hsplit : (fileContent keys).splitOn '\n' = keys := by
    rw [hint]
    exact List.splitOn_intercalate keys '\n' hnl hne
  refine ⟨rfl, hint, hsplit, by rw [hsplit], ?_, ?_⟩
  · cases keys with
    | nil => exact absurd rfl hne
    | cons k rest =>
      have hkw := hk k (List.mem_cons_self _ _)
      cases k with
      | nil => exact absurd rfl hkw.1
      | cons c cs =>
        have hc : c ≠ '\n' := isKeyChar_ne_newline (hkw.2 c (List.mem_cons_self _ _))
        unfold fileContent
        rw [stringsJoin_cons]
        simpa using hc
  · obtain ⟨pre, hpre⟩ := stringsJoin_suffix ['\n'] keys hne
    have hlast := hk _ (List.getLast_mem hne)
    unfold fileContent
    rw [hpre, List.getLast?_append_of_ne_nil _ hlast.1, List.getLast?_eq_getLast _ hlast.1]
    simp only [ne_eq, Option.some.injEq]
    exact isKeyChar_ne_newline (hlast.2 _ (List.getLast_mem hlast.1))

theorem C9_output_format_witness :
    (writeKeysToFile okFs ["abc-123".toList, "xyz-999".toList] fullPath).1
        = Event.writeFile fullPath (fileContent ["abc-123".toList, "xyz-999".toList])
            (okFs.writeFile fullPath (fileContent ["abc-123".toList, "xyz-999".toList]))
    ∧ fileContent ["abc-123".toList, "xyz-999".toList]
        = List.intercalate ['\n'] ["abc-123".toList, "xyz-999".toList]
    ∧ (fileContent ["abc-123".toList, "xyz-999".toList]).splitOn '\n'
        = ["abc-123".toList, "xyz-999".toList]
    ∧ ((fileContent ["abc-123".toList, "xyz-999".toList]).splitOn '\n').length
        = ["abc-123".toList, "xyz-999".toList].length
    ∧ (fileContent ["abc-123".toList, "xyz-999".toList]).head? ≠ some '\n'
    ∧ (fileContent ["abc-123".toList, "xyz-999".toList]).getLast? ≠ some '\n' :=
  C9_output_format okFs fullPath ["abc-123".toList, "xyz-999".toList] (by decide) (by decide)

/-- Claim C10: in every state the program can reach, one goroutine exists per
source; each has sent at most once and only after a successful fetch, so the
sends never exceed the capacity `len(sources)` and a goroutine about to send
finds room and is not blocked; no panic has happened; the channel is closed
only when every goroutine has returned; when the collecting loop has ended
every goroutine has returned, the buffer is empty and `allKeys` holds the
contribution of every successful goroutine exactly once; and the loop does
end: every state before that has a step, every step lowers a bound, and some
schedule reaches the end. -/
theorem C10_fanOut_barrier (net : List GetOutcome) (s : State) (hr : Reachable net s) :
    s.tasks.length = net.length ∧ s.panicked = false
    ∧ s.sent.Nodup ∧ (∀ i ∈ s.sent, Succeeds net i) ∧ s.sent.length ≤ net.length
    ∧ (∀ (i : Nat) (keys : List Key), s.tasks[i]? = some (TaskPc.sending keys) →
        s.keysCh.length < net.length ∧ ∃ s2, step net (.task i) s = some s2)
    ∧ (s.closed = true → ∀ i, i < net.length → s.tasks[i]? = some .done)
    ∧ (s.mainPc = .merged →
        (∀ i, i < net.length → s.tasks[i]? = some .done) ∧ s.keysCh = []
        ∧ s.allKeys = (s.sent.map (keysOf net)).flatten ∧ ∀ i, Succeeds net i → i ∈ s.sent)
    ∧ (s.mainPc ≠ .merged → ∃ a s2, step net a s = some s2)
    ∧ (∀ a s2, step net a s = some s2 → s2.measure net.length < s.measure net.length)
    ∧ (∃ sched s2, exec net sched s = some s2 ∧ s2.mainPc = .merged) := by
  have h := inv_of_reachable hr
  refine ⟨h.len, h.noPanic, h.sentNodup, fun i hi => ((h.sentIff i).mp hi).1,
    sent_length_le h, ?_, ?_, ?_, progress h, fun a s2 hs => measure_step h hs,
    exists_merged _ s h le_rfl⟩
  · intro i keys hti
    have hroom := send_room h hti
    refine ⟨hroom, ?_⟩
    have hncl : ¬ (s.closed = true) := by
      rw [h.closedIff]
      exact fun hc => not_barrier h hti (by simp) (Or.inr hc)
    simp only [step, h.noPanic, Bool.false_eq_true, if_false, stepTask, hti, hncl, hroom,
      if_true]
    exact ⟨_, rfl⟩
  · intro hc
    exact h.barrier (Or.inr (h.closedIff.mp hc))
  · intro hm
    exact ⟨merged_all_done h hm, (h.mergedDone hm).2, merged_allKeys h hm,
      fun i hi => (merged_sent_iff h hm i).mpr hi⟩

theorem C10_fanOut_barrier_witness :
    demoFinal.tasks.length = demoNet.length ∧ demoFinal.panicked = false
    ∧ demoFinal.sent.Nodup ∧ (∀ i ∈ demoFinal.sent, Succeeds demoNet i)
    ∧ demoFinal.sent.length ≤ demoNet.length
    ∧ (∀ (i : Nat) (keys : List Key), demoFinal.tasks[i]? = some (TaskPc.sending keys) →
        demoFinal.keysCh.length < demoNet.length
        ∧ ∃ s2, step demoNet (.task i) demoFinal = some s2)
    ∧ (demoFinal.closed = true → ∀ i, i < demoNet.length → demoFinal.tasks[i]? = some .done)
    ∧ (demoFinal.mainPc = .merged →
        (∀ i, i < demoNet.length → demoFinal.tasks[i]? = some .done) ∧ demoFinal.keysCh = []
        ∧ demoFinal.allKeys = (demoFinal.sent.map (keysOf demoNet)).flatten
        ∧ ∀ i, Succeeds demoNet i → i ∈ demoFinal.sent)
    ∧ (demoFinal.mainPc ≠ .merged → ∃ a s2, step demoNet a demoFinal = some s2)
    ∧ (∀ a s2, step demoNet a demoFinal = some s2 →
        s2.measure demoNet.length < demoFinal.measure demoNet.length)
    ∧ (∃ sched s2, exec demoNet sched demoFinal = some s2 ∧ s2.mainPc = .merged) :=
  C10_fanOut_barrier demoNet demoFinal demoFinal_reachable

end Warpkey
